import Mathlib

/-!
Verification of the chainless TaskFlow orchestration core against its
natural-language specification.

The development shallowly embeds the Python sources
`src/chainless/taskflow/_task_context.py`, `_task_executor.py` and
`_taskflow.py`.  Python values are modelled by the JSON-like `Value` type,
Python dicts by insertion-ordered association lists, and Python exceptions by
`PyErr` (an exception kind plus its `str(e)` message).  `ChainlessError`
(defined in `chainless/_utils/exception.py`, which is not part of the sources
under review; modelled from the spec: it is the error type raised by the
resolver and orchestrator and carries its message) is the `.chainless` kind.

Hook call sites (`_safe_call_callback`) are modelled as trace events: an event
marks the executor reaching one of its hook invocation points; a registered
callback runs exactly there, and `_safe_call_callback` swallows callback
failures, so the events fully determine observable hook behaviour.
-/

namespace Chainless

/-- JSON-like domain of Python values flowing through a TaskFlow:
`None`, booleans, integers, strings, lists and (insertion-ordered) dicts. -/
inductive Value where
  | none
  | bool (b : Bool)
  | int (n : Int)
  | str (s : String)
  | list (items : List Value)
  | dict (entries : List (String × Value))
deriving Repr

/-- Python `d.get(k)` on a string-keyed dict (first matching key wins;
keys are unique under `dictSet`). -/
def dictGet (es : List (String × Value)) (k : String) : Option Value :=
  match es with
  | [] => Option.none
  | (k', v) :: rest => if k' = k then some v else dictGet rest k

/-- Python `d[k] = v`: update in place when the key exists, else append. -/
def dictSet (es : List (String × Value)) (k : String) (v : Value) :
    List (String × Value) :=
  match es with
  | [] => [(k, v)]
  | (k', v') :: rest => if k' = k then (k, v) :: rest else (k', v') :: dictSet rest k v

/-- Python truthiness of a `Value`. -/
def pyTruthy : Value → Bool
  | .none => false
  | .bool b => b
  | .int n => n != 0
  | .str s => s ≠ ""
  | .list xs => !xs.isEmpty
  | .dict es => !es.isEmpty

/-- Python `a or b`. -/
def pyOr (a b : Value) : Value := if pyTruthy a then a else b

/-- Exception kinds distinguished by the embedded code paths. -/
inductive ErrKind where
  | chainless
  | timeoutErrorKind
  | runtimeErrorKind
  | valueErrorKind
  | unboundLocalKind
  | indexErrorKind
  | keyErrorKind
deriving DecidableEq, Repr

/-- A Python exception: its kind and its `str(e)` message. -/
structure PyErr where
  kind : ErrKind
  msg : String
deriving DecidableEq, Repr

/-- `str(x)` for the values that appear in the embedded messages:
`None` prints as `"None"`, integers in decimal. -/
def timeoutRepr : Option Nat → String
  | Option.none => "None"
  | some n => toString n

/-- Characters on which `_split_reference` splits: the regex `[.\[\]]+`. -/
def isRefSep (c : Char) : Bool := c = '.' || c = '[' || c = ']'

/-- Helper for `splitReference`: accumulates the current segment. -/
def splitRefAux : List Char → List Char → List String
  | [], acc => if acc.isEmpty then [] else [String.mk acc.reverse]
  | c :: cs, acc =>
    if isRefSep c then
      if acc.isEmpty then splitRefAux cs []
      else String.mk acc.reverse :: splitRefAux cs []
    else splitRefAux cs (c :: acc)

/-- `TaskContext._split_reference`: `re.split(r"[.\[\]]+", ref)` with empty
segments dropped. -/
def splitReference (s : String) : List String :=
  splitRefAux s.toList []

/-- Python `int(part)` on the strings that reach list indexing: an optional
sign followed by digits; anything else raises `ValueError`. -/
def parseIntOpt (s : String) : Option Int :=
  let core := fun (ds : List Char) =>
    if ds ≠ [] ∧ ds.all Char.isDigit then
      some (ds.foldl (fun a c => a * 10 + (Int.ofNat (c.toNat - '0'.toNat))) 0)
    else Option.none
  match s.toList with
  | '-' :: ds => (core ds).map (fun n => -n)
  | '+' :: ds => core ds
  | ds => core ds

/-- Python `xs[i]` with negative-index wrap-around. -/
def pyListGet (xs : List Value) (i : Int) : Option Value :=
  if 0 ≤ i then xs.get? i.toNat
  else
    let j : Int := Int.ofNat xs.length + i
    if 0 ≤ j then xs.get? j.toNat else Option.none

/-- `TaskContext._resolve_nested_references`: strict dotted/indexed traversal
of a recorded step output.  A missing dict key, an out-of-range index, an
unparsable index or an unsupported leaf each raise a named `ChainlessError`
(the pydantic `BaseModel` branch has no counterpart in the `Value` domain). -/
def resolveNested (current : Value) (parts : List String) (stepName : String) :
    Except PyErr Value :=
  match parts with
  | [] => .ok current
  | part :: rest =>
    match current with
    | .dict entries =>
      match dictGet entries part with
      | some v => resolveNested v rest stepName
      | Option.none =>
        .error ⟨.chainless,
          "Dict key \x27" ++ part ++ "\x27 not found in step \x27 " ++ stepName ++ "\x27."⟩
    | .list items =>
      match parseIntOpt part with
      | Option.none =>
        .error ⟨.chainless,
          "Invalid index \x27" ++ part ++ "\x27 in step \x27" ++ stepName ++
            "\x27: invalid literal for int() with base 10: \x27" ++ part ++ "\x27"⟩
      | some idx =>
        if Int.ofNat items.length ≤ idx then
          .error ⟨.chainless,
            "List index \x27" ++ toString idx ++ "\x27 out of range for step \x27" ++
              stepName ++ "\x27."⟩
        else
          match pyListGet items idx with
          | some v => resolveNested v rest stepName
          | Option.none => .error ⟨.indexErrorKind, "list index out of range"⟩
    | other =>
      .error ⟨.chainless,
        "Cannot resolve part \x27" ++ part ++ "\x27: unsupported type \x27" ++
          (match other with
           | .none => "NoneType"
           | .bool _ => "bool"
           | .int _ => "int"
           | .str _ => "str"
           | .list _ => "list"
           | .dict _ => "dict") ++
          "\x27 for step \x27" ++ stepName ++ "\x27."⟩

/-- Is the first character list a prefix of the second? -/
def chListStarts : List Char → List Char → Bool
  | [], _ => true
  | _ :: _, [] => false
  | c :: cs, h :: hs => c == h && chListStarts cs hs

/-- Does the first character list occur inside the second? -/
def chListOccurs (needle : List Char) : List Char → Bool
  | [] => needle.isEmpty
  | h :: hs => chListStarts needle (h :: hs) || chListOccurs needle hs

/-- Does `pat` occur as a substring of `s`?  (Python `pat in s`.) -/
def strContains (s pat : String) : Bool :=
  chListOccurs pat.toList s.toList

/-- Python `s.strip(...)`: drop characters satisfying `p` from both ends. -/
def stripBy (s : String) (p : Char → Bool) : String :=
  String.mk (((s.toList.dropWhile p).reverse.dropWhile p).reverse)

/-- Python `s.strip(chars)`: drop the given characters from both ends. -/
def stripChars (s : String) (chars : List Char) : String :=
  stripBy s (chars.contains ·)

/-- `val.strip("{} ").strip()` from `_resolve_value`. -/
def templateOf (s : String) : String :=
  stripBy (stripChars s ['{', '}', ' ']) Char.isWhitespace

/-- The resolver context: declared aliases, the accumulated step outputs and
the run's initial input (the relevant slice of `TaskContext`). -/
structure ResolverCtx where
  aliases : List (String × (String × String))
  outputs : List (String × Value)
  initialInput : Value

/-- Lookup of an alias name (Python `template in self._aliases`). -/
def aliasGet (al : List (String × (String × String))) (k : String) :
    Option (String × String) :=
  match al with
  | [] => Option.none
  | (k', v) :: rest => if k' = k then some v else aliasGet rest k

/-- `TaskContext._resolve_references`: the first path segment names a step,
the rest traverse its recorded output.  A step without a recorded output
(missing key, or a stored Python `None`) is a named error. -/
def resolveReferences (ctx : ResolverCtx) (ref : String) : Except PyErr Value :=
  match splitReference ref with
  | [] => .error ⟨.indexErrorKind, "list index out of range"⟩
  | stepName :: rest =>
    match dictGet ctx.outputs stepName with
    | Option.none =>
      .error ⟨.chainless,
        "Cannot resolve reference \x27" ++ ref ++ "\x27: step \x27" ++ stepName ++
          "\x27 has no output."⟩
    | some Value.none =>
      .error ⟨.chainless,
        "Cannot resolve reference \x27" ++ ref ++ "\x27: step \x27" ++ stepName ++
          "\x27 has no output."⟩
    | some out => resolveNested out rest stepName

/-- `TaskContext._resolve_value`: non-template values pass through; a string
containing `\x7b\x7binput\x7d\x7d` yields the initial input; otherwise the trimmed template is
looked up among the aliases and finally resolved as a step reference. -/
def resolveValue (ctx : ResolverCtx) (v : Value) : Except PyErr Value :=
  match v with
  | .str s =>
    if strContains s "\x7b\x7b" then
      if strContains s "\x7b\x7binput\x7d\x7d" then .ok ctx.initialInput
      else
        let template := templateOf s
        match aliasGet ctx.aliases template with
        | some (fromStep, fromKey) =>
          (match dictGet ctx.outputs fromStep with
           | Option.none =>
             .error ⟨.chainless,
               "Step \x27" ++ fromStep ++ "\x27 has no output to resolve \x27" ++
                 fromKey ++ "\x27."⟩
           | some Value.none =>
             .error ⟨.chainless,
               "Step \x27" ++ fromStep ++ "\x27 has no output to resolve \x27" ++
                 fromKey ++ "\x27."⟩
           | some out => resolveNested out (splitReference fromKey) fromStep)
        | Option.none => resolveReferences ctx template
    else .ok (.str s)
  | other => .ok other

/-!
## Step, context and executor (`_task_executor.py`, `schemas/taskflow_schema.py`)

A step's runnable ("agent") is a black box; `AgentBehavior` gives, per
resolved input and attempt index, the result the call would produce if it ran
to completion together with how long it would take.  `anyio.move_on_after`
cancels the in-flight call once the step's (truthy) timeout is reached, so an
attempt whose duration reaches the deadline ends with the scope cancelled:
control resumes after the `with` block with the local `output` never assigned,
and the `if output is None` test raises `UnboundLocalError` — a plain
`Exception`, not a `TimeoutError` (prompt templates and message histories are
`None` in all flows considered, as in `resolve_prompt` lines 170-171). -/

/-- Outcome of one runnable invocation, were it allowed to finish. -/
inductive AgentResult where
  | returns (v : Value)
  | raises (e : PyErr)

/-- A registered runnable: result and duration per (resolved input, attempt). -/
structure AgentBehavior where
  run : List (String × Value) → Nat → AgentResult
  duration : List (String × Value) → Nat → Nat

/-- One step declaration (`TaskStep` with the fields the orchestrator reads;
`condition` returns an arbitrary Python value, coerced later). -/
structure StepDef where
  stepName : String
  agentName : String
  inputMap : List (String × Value)
  retryOnFail : Option Nat
  timeout : Option Nat
  condition : Option (List (String × Value) → Value)
  dependsOn : List String

/-- The flow's immutable configuration: declared steps, the runnable registry,
aliases and the global retry count.  (No run-path statement in the sources
mutates these; the per-run mutable pieces live in `FlowState`.) -/
structure FlowCfg where
  steps : List StepDef
  agents : List (String × AgentBehavior)
  aliases : List (String × (String × String))
  retryOnFail : Nat

/-- Agent registry lookup. -/
def agentGet (ags : List (String × AgentBehavior)) (k : String) :
    Option AgentBehavior :=
  match ags with
  | [] => Option.none
  | (k', v) :: rest => if k' = k then some v else agentGet rest k

/-- `TaskContext._get_step_by_name`: first declared step with that name. -/
def getStepByName (steps : List StepDef) (name : String) : Option StepDef :=
  match steps with
  | [] => Option.none
  | s :: rest => if s.stepName = name then some s else getStepByName rest name

/-- The reserved runnable-contract parameter names (`RESERVED_KEYS`). -/
def reservedKeys : List String :=
  ["input", "model", "model_settings", "usage_limits", "usage",
   "message_history", "pre_hooks", "post_hooks", "extra_inputs"]

/-- Per-key resolution loop of `TaskContext.resolve_input`: a `ChainlessError`
is re-raised as is, any other exception is wrapped. -/
def resolveEntries (ctx : ResolverCtx) :
    List (String × Value) → Except PyErr (List (String × Value))
  | [] => .ok []
  | (k, v) :: rest =>
    match resolveValue ctx v with
    | .error e =>
      if e.kind = .chainless then .error e
      else .error ⟨.chainless, "Failed to resolve \x27" ++ k ++ "\x27: " ++ e.msg⟩
    | .ok rv =>
      match resolveEntries ctx rest with
      | .error e => .error e
      | .ok rs => .ok ((k, rv) :: rs)

/-- `TaskContext.resolve_input`: resolve every value, split the result into
reserved keys versus `extra_inputs`, and attach the extras. -/
def resolveInputMap (ctx : ResolverCtx) (inputMap : List (String × Value)) :
    Except PyErr (List (String × Value)) :=
  match resolveEntries ctx inputMap with
  | .error e => .error e
  | .ok resolved =>
    let reserved := resolved.filter (fun kv => reservedKeys.contains kv.1)
    let extra := resolved.filter (fun kv => !reservedKeys.contains kv.1)
    .ok (dictSet reserved "extra_inputs" (.dict extra))

/-- `run_step_async` lines 87-91: with no prompt template,
`resolved_input["input"] = None or resolved_input.get("input", "") or ""` and
`resolved_input["message_history"] = None`. -/
def prepareInput (resolved : List (String × Value)) : List (String × Value) :=
  let inputVal := pyOr ((dictGet resolved "input").getD (.str "")) (.str "")
  dictSet (dictSet resolved "input" inputVal) "message_history" .none

/-- `usr_input = resolved_input.get("input", "") or ""` (line 96). -/
def usrInputOf (prepared : List (String × Value)) : Value :=
  pyOr ((dictGet prepared "input").getD (.str "")) (.str "")

/-- Trace events: the executor's hook invocation points, runnable invocations
(one per attempt, cancelled or not) and `step_outputs` writes. -/
inductive Event where
  | hookStepStart (step : String) (input : Value)
  | hookFlowStart (step : String) (input : Value)
  | invoke (step : String) (attempt : Nat)
  | record (step : String)
  | hookStepError (step : String) (msg : String)
  | hookFlowError (step : String) (msg : String)
  | hookFlowComplete (step : String) (output : Value)
  | hookStepComplete (step : String) (output : Value)
deriving Repr

/-- Does the step's timeout arm `anyio.move_on_after`?  (`if timeout` — `None`
and `0` are falsy.) -/
def timeoutArmed : Option Nat → Bool
  | Option.none => false
  | some t => t != 0

/-- Does the deadline fire on an attempt of the given duration? -/
def deadlineFires (timeout : Option Nat) (dur : Nat) : Bool :=
  match timeout with
  | Option.none => false
  | some t => t != 0 && t ≤ dur

/-- How the `while True` retry loop of `run_step_async` ends. -/
inductive LoopExit where
  | success (v : Value) (stale : Option PyErr)
  | brokeErr (e : PyErr)
  | raisedPermanent (e : PyErr)
deriving Repr

/-- The message of the `UnboundLocalError` raised by `if output is None` after
a cancelled attempt (CPython 3.11+ wording; no claim depends on the text). -/
def unboundLocalMsg : String :=
  "cannot access local variable \x27output\x27 where it is not associated with a value"

/-- The `TimeoutError` message raised when the runnable returns `None`
(lines 187-190); the step's timeout is interpolated, `None` included. -/
def noneTimeoutMsg (agentName : String) (timeout : Option Nat) : String :=
  "Step \x27" ++ agentName ++ "\x27 timed out after " ++ timeoutRepr timeout ++ " seconds."

/-- The `raise RuntimeError(...)` message of the exhausted-budget generic
except branch (line 203). -/
def permanentMsg (stepName : String) (e : PyErr) : String :=
  stepName ++ " failed permanently: " ++ e.msg

/-- The `while True` loop of `run_step_async` (lines 136-207), as a recursion
on the remaining retry budget.  Per attempt: a fired deadline leaves `output`
unbound, so the post-scope `None` test raises `UnboundLocalError` into the
generic `except Exception` branch; a completed call returning `None` raises
`TimeoutError`, caught by `except TimeoutError` which breaks without touching
the budget; a raised `TimeoutError` takes the same branch; any other exception
retries while budget remains and otherwise raises the permanent
`RuntimeError`.  A success breaks with whatever `last_exception` holds (it is
never reset).  Returns the exit and the list of invoked attempt indices. -/
def stepLoop (beh : AgentBehavior) (inp : List (String × Value))
    (timeout : Option Nat) (agentName stepName : String) :
    Nat → Nat → Option PyErr → LoopExit × List Nat
  | retries, attempt, lastExc =>
    let genericFail := fun (e : PyErr) =>
      match retries with
      | 0 => (LoopExit.raisedPermanent ⟨.runtimeErrorKind, permanentMsg stepName e⟩,
              [attempt])
      | r + 1 =>
        let next := stepLoop beh inp timeout agentName stepName r (attempt + 1) (some e)
        (next.1, attempt :: next.2)
    if deadlineFires timeout (beh.duration inp attempt) then
      genericFail ⟨.unboundLocalKind, unboundLocalMsg⟩
    else
      match beh.run inp attempt with
      | .raises e =>
        if e.kind = .timeoutErrorKind then (LoopExit.brokeErr e, [attempt])
        else genericFail e
      | .returns Value.none =>
        (LoopExit.brokeErr ⟨.timeoutErrorKind, noneTimeoutMsg agentName timeout⟩,
         [attempt])
      | .returns v => (LoopExit.success v lastExc, [attempt])

/-- Result of one `run_step_async` call: updated `step_outputs`, trace events,
and the returned value or raised exception. -/
structure StepExec where
  outputs : List (String × Value)
  events : List Event
  result : Except PyErr Value
deriving Repr

/-- `TaskExecutor.run_step_async`.  Input resolution precedes the hooks, so a
resolution error propagates with no events.  The start hooks fire (step-level
then flow-level), the retry loop runs, and afterwards the
`if last_exception:` block (lines 209-219) records `\x7b"error": message\x7d`, fires
the error hooks (step-level then flow-level) and re-raises — note this block
is reached only when the loop *breaks*; the exhausted-budget branch raises
`RuntimeError` from inside the loop and bypasses it.  On a clean success the
raw output is recorded and the complete hooks fire (flow-level then
step-level). -/
def runStepAsync (cfg : FlowCfg) (initialInput : Value)
    (outputs : List (String × Value)) (step : StepDef) : StepExec :=
  let rctx : ResolverCtx := ⟨cfg.aliases, outputs, initialInput⟩
  match resolveInputMap rctx step.inputMap with
  | .error e => ⟨outputs, [], .error e⟩
  | .ok resolved =>
    let prepared := prepareInput resolved
    let usr := usrInputOf prepared
    let startEvents := [Event.hookStepStart step.stepName usr,
                        Event.hookFlowStart step.stepName usr]
    match agentGet cfg.agents step.agentName with
    | Option.none =>
      ⟨outputs, startEvents, .error ⟨.keyErrorKind, step.agentName⟩⟩
    | some beh =>
      let retries := step.retryOnFail.getD cfg.retryOnFail
      let (exit, attempts) :=
        stepLoop beh prepared step.timeout step.agentName step.stepName
          retries 0 Option.none
      let invokes := attempts.map (Event.invoke step.stepName)
      let errorPath := fun (e : PyErr) =>
        StepExec.mk
          (dictSet outputs step.stepName (.dict [("error", .str e.msg)]))
          (startEvents ++ invokes ++
            [Event.record step.stepName,
             Event.hookStepError step.stepName e.msg,
             Event.hookFlowError step.stepName e.msg])
          (.error e)
      match exit with
      | .raisedPermanent e => ⟨outputs, startEvents ++ invokes, .error e⟩
      | .brokeErr e => errorPath e
      | .success _ (some e) => errorPath e
      | .success v Option.none =>
        ⟨dictSet outputs step.stepName v,
         startEvents ++ invokes ++
           [Event.record step.stepName,
            Event.hookFlowComplete step.stepName v,
            Event.hookStepComplete step.stepName v],
         .ok v⟩

/-!
## Execution order (`TaskExecutor._get_execution_order`, lines 40-67)

With no declared dependency the declaration order is returned directly.
Otherwise a `networkx.DiGraph` is built (one node per step in declaration
order, one edge `dep → step` per dependency, unknown dependencies raising a
named `RuntimeError`), and `topological_sort` — Kahn's algorithm processing
zero-in-degree nodes generation by generation in node insertion order — is
materialised.  On a cycle, `find_cycle(G, orientation="original")` is called:
with an orientation, networkx extends every returned edge to a
`(u, v, direction)` triple, so the source's two-name unpacking
`node for node, _ in cycle` raises `ValueError` before the cycle-naming
`RuntimeError` can be built. -/

/-- `G.add_node`: append if not present (node insertion order matters for the
topological sort's tie-breaking). -/
def addNode (nodes : List String) (n : String) : List String :=
  if nodes.contains n then nodes else nodes ++ [n]

/-- `G.add_edge dep step`: inserts both endpoints and the edge (no parallel
edges in a `DiGraph`). -/
def addEdge (edges : List (String × String)) (e : String × String) :
    List (String × String) :=
  if edges.contains e then edges else edges ++ [e]

/-- Dependency loop for one step (lines 52-58): validate each dependency name
and add the `dep → step` edge (`add_edge` inserting missing endpoints). -/
def addStepDeps (allAgents : List String) (stepName : String) :
    List String → List String → List (String × String) →
    Except PyErr (List String × List (String × String))
  | [], ns, es => .ok (ns, es)
  | dep :: deps, ns, es =>
    if allAgents.contains dep then
      addStepDeps allAgents stepName deps (addNode (addNode ns dep) stepName)
        (addEdge es (dep, stepName))
    else
      .error ⟨.runtimeErrorKind,
        "Step \x27" ++ stepName ++ "\x27 depends on unknown agent \x27" ++
          dep ++ "\x27."⟩

/-- Graph construction loop of `_get_execution_order` (lines 50-58); fails on
the first dependency that is not a declared step name. -/
def buildGraph (allAgents : List String) :
    List StepDef → List String → List (String × String) →
    Except PyErr (List String × List (String × String))
  | [], nodes, edges => .ok (nodes, edges)
  | step :: rest, nodes, edges =>
    match addStepDeps allAgents step.stepName step.dependsOn
        (addNode nodes step.stepName) edges with
    | .error e => .error e
    | .ok (ns, es) => buildGraph allAgents rest ns es

/-- In-degree of `n` in the current edge list. -/
def indegree (edges : List (String × String)) (n : String) : Nat :=
  (edges.filter (fun e => e.2 = n)).length

/-- Kahn's algorithm with a FIFO queue — the flattening of networkx
`topological_generations`: pop the queue head, drop its outgoing edges, and
enqueue (in adjacency order) the children whose in-degree thereby reached
zero.  Fuel bounds the emitted nodes. -/
def kahnLoop : Nat → List (String × String) → List String → List String →
    List String
  | 0, _, _, acc => acc
  | _ + 1, _, [], acc => acc
  | fuel + 1, edges, n :: qs, acc =>
    let edges' := edges.filter (fun e => e.1 ≠ n)
    let children := (edges.filter (fun e => e.1 = n)).map (fun e => e.2)
    let newZeros := children.filter (fun m => indegree edges' m = 0)
    kahnLoop fuel edges' (qs ++ newZeros) (acc ++ [n])

/-- `list(nx.topological_sort(G))`; incomplete output means a cycle. -/
def kahnSort (nodes : List String) (edges : List (String × String)) :
    List String :=
  kahnLoop nodes.length edges (nodes.filter (fun n => indegree edges n = 0)) []

/-- Modelled from networkx `find_cycle(G, orientation="original")`: the edges
of a found cycle, each extended with its traversal direction to a
`(u, v, "forward")` triple (Python tuples are modelled as string lists, so
that unpacking arity is observable).  Only the triple shape and nonemptiness
of the result matter to the caller, so the model returns the remaining cyclic
core's edges rather than replaying networkx's depth-first search. -/
def findCycleTriples (edges : List (String × String)) (remaining : List String) :
    List (List String) :=
  (edges.filter (fun e => remaining.contains e.1 && remaining.contains e.2)).map
    (fun e => [e.1, e.2, "forward"])

/-- The generator `node for node, _ in cycle`: 2-unpack every tuple. -/
def unpackPairs : List (List String) → Except PyErr (List String)
  | [] => .ok []
  | t :: ts =>
    match t with
    | [a, _] =>
      match unpackPairs ts with
      | .error e => .error e
      | .ok rest => .ok (a :: rest)
    | _ =>
      if t.length > 2 then
        .error ⟨.valueErrorKind, "too many values to unpack (expected 2)"⟩
      else
        .error ⟨.valueErrorKind,
          "not enough values to unpack (expected 2, got " ++
            toString t.length ++ ")"⟩

/-- Join a list of strings with a separator (`sep.join xs`). -/
def joinSep (sep : String) : List String → String
  | [] => ""
  | [x] => x
  | x :: xs => x ++ sep ++ joinSep sep xs

/-- The cycle-message construction of lines 63-66:
`" -> ".join(node for node, _ in cycle) + " -> " + cycle[0][0]`, then the
`RuntimeError`.  The join's unpacking raises `ValueError` on the triples
networkx actually returns; an empty cycle list would fail on `cycle[0]`. -/
def cycleError (cycle : List (List String)) : PyErr :=
  match unpackPairs cycle with
  | .error e => e
  | .ok heads =>
    match cycle with
    | [] => ⟨.indexErrorKind, "list index out of range"⟩
    | first :: _ =>
      match first with
      | [] => ⟨.indexErrorKind, "list index out of range"⟩
      | h :: _ =>
        ⟨.runtimeErrorKind,
          "Step dependency cycle detected! Cycle: " ++
            joinSep " -> " heads ++ " -> " ++ h⟩

/-- `TaskExecutor._get_execution_order` (a `cached_property`; the declarations
it reads are immutable, so computing it per run is equivalent). -/
def getExecutionOrder (steps : List StepDef) : Except PyErr (List String) :=
  if steps.all (fun s => s.dependsOn.isEmpty) then
    .ok (steps.map (fun s => s.stepName))
  else
    let allAgents := steps.map (fun s => s.stepName)
    match buildGraph allAgents steps [] [] with
    | .error e => .error e
    | .ok (nodes, edges) =>
      let order := kahnSort nodes edges
      if order.length = nodes.length then .ok order
      else
        .error (cycleError
          (findCycleTriples edges (nodes.filter (fun n => !order.contains n))))

/-!
## The orchestrating walk (`TaskFlow._run_async`, `_run_parallel_group`,
`run` / `run_async`)

Per-run mutable state is `step_outputs` (never cleared between runs),
`_parallel_groups` (a consumed group is removed from the instance) and
`initial_input`.  The walk follows the execution order; a parallel group is
run in full when the walk first meets any member (the model serialises the
`anyio` task group: members run one after the other over the shared
`step_outputs`, each failure caught individually — the claims settled below
do not depend on the interleaving). -/

/-- The mutable per-instance state surviving across `run` calls. -/
structure FlowState where
  outputs : List (String × Value)
  parallelGroups : List (List String)
  initialInput : Value
deriving Repr

/-- `\x7b"output": None, "skipped": True\x7d`, recorded for a skipped step. -/
def skippedDict : Value := .dict [("output", .none), ("skipped", .bool true)]

/-- `isinstance(cond_result, bool)` coercion: non-booleans count as `False`. -/
def pyBoolCoerce : Value → Bool
  | .bool b => b
  | _ => false

/-- One parallel-group member's outcome: its step-executor events and, if it
raised, the caught exception. -/
structure MemberOutcome where
  name : String
  events : List Event
  failed : Option PyErr

/-- Result of a fully-launched parallel group. -/
structure GroupRun where
  outputs : List (String × Value)
  members : List MemberOutcome

/-- `_run_parallel_group`'s member loop: members already in `executed_steps`
are skipped; each other member runs through `run_step_async` with its failure
caught individually, so every member settles.  A missing step declaration
raises out of the task group (aborting the run) and is surfaced as the
`.error` case carrying the partial outputs and member outcomes. -/
def runGroupMembers (cfg : FlowCfg) (initialInput : Value)
    (executed : List String) :
    List String → List (String × Value) → List MemberOutcome →
    Except (List (String × Value) × List MemberOutcome × PyErr) GroupRun
  | [], outs, acc => .ok ⟨outs, acc⟩
  | n :: rest, outs, acc =>
    if executed.contains n then
      runGroupMembers cfg initialInput executed rest outs acc
    else
      match getStepByName cfg.steps n with
      | Option.none =>
        .error (outs, acc,
          ⟨.chainless, "Step \x27" ++ n ++ "\x27 does not exist in the task flow."⟩)
      | some step =>
        let r := runStepAsync cfg initialInput outs step
        let m : MemberOutcome :=
          ⟨n, r.events, match r.result with
                        | .ok _ => Option.none
                        | .error e => some e⟩
        runGroupMembers cfg initialInput executed rest r.outputs (acc ++ [m])

/-- The `(n, e)` pairs of the members that failed, in member order. -/
def groupErrors (ms : List MemberOutcome) : List (String × PyErr) :=
  ms.filterMap (fun m => m.failed.map (fun e => (m.name, e)))

/-- `results.keys()`: the members that completed without raising. -/
def groupSuccesses (ms : List MemberOutcome) : List String :=
  (ms.filter (fun m => m.failed.isNone)).map (fun m => m.name)

/-- The group's trace: each member's executor events, a failing member's
followed by the flow-level `on_step_error` call the aggregator makes. -/
def groupEvents (ms : List MemberOutcome) : List Event :=
  ms.flatMap (fun m =>
    m.events ++
      match m.failed with
      | some e => [Event.hookFlowError m.name e.msg]
      | Option.none => [])

/-- `"Parallel group failed: " ++ "; ".join(f"\x7bn\x7d: \x7be\x7d" ...)`. -/
def aggMsg (errs : List (String × PyErr)) : String :=
  "Parallel group failed: " ++
    joinSep "; " (errs.map (fun p => p.1 ++ ": " ++ p.2.msg))

/-- First declared parallel group containing the step (`next(...)`). -/
def findGroup (gs : List (List String)) (n : String) : Option (List String) :=
  match gs with
  | [] => Option.none
  | g :: rest => if g.contains n then some g else findGroup rest n

/-- Python `list.remove(g)`: drop the first equal element. -/
def removeFirst (gs : List (List String)) (g : List String) :
    List (List String) :=
  match gs with
  | [] => []
  | x :: xs => if x = g then xs else x :: removeFirst xs g

/-- Outcome of one iteration of the `for step_name in execution_order` loop:
continue with updated state, or abort the run with a raised exception. -/
inductive IterOut where
  | next (st : FlowState) (executed : List String) (events : List Event)
  | halt (st : FlowState) (events : List Event) (e : PyErr)

/-- The loop body of `_run_async` (lines 300-362): skip names already
executed; validate the step's agent; evaluate a declared condition against
the full accumulated `step_outputs`, coercing non-booleans to `False` and
recording `\x7boutput: None, skipped: True\x7d` without running anything on `False`;
then either consume the first parallel group containing the name (removing it
from the instance only when every member succeeded, since the aggregate raise
precedes the removal) or run the single step. -/
def processName (cfg : FlowCfg) (st : FlowState) (executed : List String)
    (name : String) : IterOut :=
  if executed.contains name then .next st executed []
  else
    match getStepByName cfg.steps name with
    | Option.none =>
      .halt st []
        ⟨.chainless, "Step \x27" ++ name ++ "\x27 does not exist in the task flow."⟩
    | some step =>
      if step.agentName = "" then
        .halt st []
          ⟨.chainless, "Step \x27\x27" ++ name ++ " must have an assigned agent."⟩
      else if (agentGet cfg.agents step.agentName).isNone then
        .halt st []
          ⟨.chainless, "Agent \x27" ++ step.agentName ++ "\x27 for step \x27" ++
            name ++ "\x27 is not registered."⟩
      else
        let proceed : Bool :=
          match step.condition with
          | Option.none => true
          | some c => pyBoolCoerce (c st.outputs)
        if !proceed then
          .next { st with outputs := dictSet st.outputs name skippedDict }
            executed [Event.record name]
        else
          match findGroup st.parallelGroups name with
          | some g =>
            (match runGroupMembers cfg st.initialInput executed g st.outputs [] with
             | .error (outs, ms, e) =>
               .halt { st with outputs := outs } (groupEvents ms) e
             | .ok gr =>
               let errs := groupErrors gr.members
               if errs.isEmpty then
                 .next { st with outputs := gr.outputs,
                                 parallelGroups := removeFirst st.parallelGroups g }
                   (executed ++ groupSuccesses gr.members) (groupEvents gr.members)
               else
                 .halt { st with outputs := gr.outputs } (groupEvents gr.members)
                   ⟨.chainless, aggMsg errs⟩)
          | Option.none =>
            let r := runStepAsync cfg st.initialInput st.outputs step
            match r.result with
            | .ok _ =>
              .next { st with outputs := r.outputs } (executed ++ [name]) r.events
            | .error e => .halt { st with outputs := r.outputs } r.events e

/-- Result of walking (a suffix of) the execution order. -/
structure WalkResult where
  state : FlowState
  events : List Event
  err : Option PyErr
deriving Repr

/-- The ordered walk: process each name in turn, stopping at the first raised
exception (a step failure aborts the sequential walk). -/
def walkFrom (cfg : FlowCfg) : List String → FlowState → List String → WalkResult
  | [], st, _ => ⟨st, [], Option.none⟩
  | n :: rest, st, executed =>
    match processName cfg st executed n with
    | .halt st' evs e => ⟨st', evs, some e⟩
    | .next st' executed' evs =>
      let w := walkFrom cfg rest st' executed'
      ⟨w.state, evs ++ w.events, w.err⟩

mutual

/-- `clean_output_structure` / `to_serializable` restricted to the `Value`
domain (no enums, models or custom objects): the identity, recursively. -/
def cleanValue : Value → Value
  | .none => .none
  | .bool b => .bool b
  | .int n => .int n
  | .str s => .str s
  | .list xs => .list (cleanVList xs)
  | .dict es => .dict (cleanVDict es)

/-- `to_serializable` over a list. -/
def cleanVList : List Value → List Value
  | [] => []
  | v :: vs => cleanValue v :: cleanVList vs

/-- `to_serializable` over dict entries. -/
def cleanVDict : List (String × Value) → List (String × Value)
  | [] => []
  | (k, v) :: es => (k, cleanValue v) :: cleanVDict es

end

/-- The final-output extraction of `TaskFlow.run` / `run_async`
(lines 250-255): key the result dict by the **agent name** of the last
declared step (default `\x7b\x7d`), take its `"output"` field when it is a dict
(default `None`), else the raw entry. -/
def lastDeclaredExtract (steps : List StepDef) (result : List (String × Value)) :
    Value :=
  let lastStep : Value :=
    match steps.getLast? with
    | some s => (dictGet result s.agentName).getD (.dict [])
    | Option.none => .dict []
  match lastStep with
  | .dict es => (dictGet es "output").getD .none
  | v => v

/-- The second unwrapping in `FlowOutput.from_flow_output`: a dict-valued
final output is replaced by its `"output"` field when that key exists. -/
def flowFinalOutput (outputVal : Value) : Value :=
  match outputVal with
  | .dict es => (dictGet es "output").getD (.dict es)
  | v => v

/-- `TaskFlow.run` (equivalently `run_async`; `run` adapts the coroutine to a
blocking call): store the initial input, compute the execution order, walk
it, and on completion build the `FlowOutput` whose final `output` field is
the extraction chain above applied to the accumulated `step_outputs`.
`step_outputs` is never cleared, and consumed groups stay removed. -/
def taskFlowRun (cfg : FlowCfg) (st : FlowState) (input : Value) :
    FlowState × List Event × Except PyErr Value :=
  let st := { st with initialInput := input }
  match getExecutionOrder cfg.steps with
  | .error e => (st, [], .error e)
  | .ok order =>
    let w := walkFrom cfg order st []
    match w.err with
    | some e => (w.state, w.events, .error e)
    | Option.none =>
      (w.state, w.events,
       .ok (flowFinalOutput (cleanValue (lastDeclaredExtract cfg.steps w.state.outputs))))

/-!
## Trace observations and spec-side definitions -/

/-- The step name an event is about. -/
def eventStep : Event → String
  | .hookStepStart n _ => n
  | .hookFlowStart n _ => n
  | .invoke n _ => n
  | .record n => n
  | .hookStepError n _ => n
  | .hookFlowError n _ => n
  | .hookFlowComplete n _ => n
  | .hookStepComplete n _ => n

/-- Number of flow-level `on_step_error` firings for a step in a trace. -/
def flowErrorHookCount (evs : List Event) (n : String) : Nat :=
  (evs.filter (fun e => match e with
    | .hookFlowError m _ => m == n
    | _ => false)).length

/-- Number of step-level `on_error` firings for a step in a trace. -/
def stepErrorHookCount (evs : List Event) (n : String) : Nat :=
  (evs.filter (fun e => match e with
    | .hookStepError m _ => m == n
    | _ => false)).length

/-- The step names of the runnable invocations of a trace, in order. -/
def invokedSteps (evs : List Event) : List String :=
  evs.filterMap (fun e => match e with
    | .invoke m _ => some m
    | _ => Option.none)

/-- Does the trace contain a `step_outputs` write for the given step? -/
def containsRecord (evs : List Event) (d : String) : Bool :=
  evs.any (fun e => match e with
    | .record m => m == d
    | _ => false)

/-- Scan of a trace: with `seen` the knowledge that `d` has already settled,
check that every runnable invocation of `s` happens after a `step_outputs`
write for `d`. -/
def depSettledAux (d s : String) : List Event → Bool → Bool
  | [], _ => true
  | .record m :: rest, seen => depSettledAux d s rest (seen || m == d)
  | .invoke m _ :: rest, seen =>
    if m == s then seen && depSettledAux d s rest seen
    else depSettledAux d s rest seen
  | _ :: rest, seen => depSettledAux d s rest seen

/-- "Step `s` runs strictly after `d` settled" as a trace property: every
invocation of `s`'s runnable is preceded by a recorded result for `d`. -/
def depSettledBefore (evs : List Event) (d s : String) : Bool :=
  depSettledAux d s evs false

/-- The final-output rule of claim C4 as amended, written from its own words:
take the `step_outputs` entry under the **agent name** of the last declared
step (an absent key giving the empty mapping); a mapping entry contributes its
`"output"` field (`None` when absent), any other entry contributes itself;
and a mapping so obtained that itself has an `"output"` key is unwrapped once
more. -/
def finalOutputSpec (steps : List StepDef) (outs : List (String × Value)) :
    Value :=
  let entry : Value :=
    match steps.getLast? with
    | some s => (dictGet outs s.agentName).getD (.dict [])
    | Option.none => .dict []
  let firstUnwrap : Value :=
    match entry with
    | .dict es => (dictGet es "output").getD .none
    | v => v
  match firstUnwrap with
  | .dict es => (dictGet es "output").getD (.dict es)
  | v => v

/-!
## Concrete fixtures used by the per-claim theorems -/

/-- A runnable that always returns `v` instantly. -/
def retBeh (v : Value) : AgentBehavior :=
  ⟨fun _ _ => .returns v, fun _ _ => 0⟩

/-- A runnable that always raises a plain `Exception` with message `msg`. -/
def raiseBeh (msg : String) : AgentBehavior :=
  ⟨fun _ _ => .raises ⟨.runtimeErrorKind, msg⟩, fun _ _ => 0⟩

/-- A runnable whose every attempt overruns any armed deadline. -/
def slowBeh : AgentBehavior :=
  ⟨fun _ _ => .returns (.str "late"), fun _ _ => 1000⟩

/-- A fresh flow instance's mutable state. -/
def freshState : FlowState := ⟨[], [], .none⟩

/-- C9: resolver context where step `A` recorded `\x7b"output": \x7b"value": 7\x7d\x7d` and
alias `al` points at `(A, "output.value")`. -/
def c9ctx : ResolverCtx :=
  ⟨[("al", ("A", "output.value"))],
   [("A", .dict [("output", .dict [("value", .int 7)])])],
   .str "init"⟩

/-- C1: a step bound to an agent that always raises, with retry budget 0. -/
def c1step : StepDef := ⟨"S", "A", [], Option.none, Option.none, Option.none, []⟩

/-- C1: its flow configuration. -/
def c1cfg : FlowCfg := ⟨[c1step], [("A", raiseBeh "boom")], [], 0⟩

/-- C10: a flow whose agent returns `None`, with a generous retry budget. -/
def c10cfg : FlowCfg := ⟨[c1step], [("A", retBeh .none)], [], 5⟩

/-- C6: step `A` depends on `B`. -/
def c6stepA : StepDef := ⟨"A", "agA", [], Option.none, Option.none, Option.none, ["B"]⟩

/-- C6: step `B` depends on `A`, closing the cycle. -/
def c6stepB : StepDef := ⟨"B", "agB", [], Option.none, Option.none, Option.none, ["A"]⟩

/-- C6: the cyclic flow. -/
def c6cfg : FlowCfg :=
  ⟨[c6stepA, c6stepB],
   [("agA", retBeh (.str "a")), ("agB", retBeh (.str "b"))], [], 0⟩

/-- C4: the single declared step has step name `S` but agent name `A`. -/
def c4step : StepDef :=
  ⟨"S", "A", [("input", .str "hi")], Option.none, Option.none, Option.none, []⟩

/-- C4: its flow; the agent returns `\x7b"output": 7\x7d`. -/
def c4cfg : FlowCfg := ⟨[c4step], [("A", retBeh (.dict [("output", .int 7)]))], [], 0⟩

/-- C5: member `B` of the parallel group; its agent returns `None`, which the
executor converts into a timeout-kind failure. -/
def c5stepB : StepDef := ⟨"B", "agB", [], Option.none, Option.none, Option.none, []⟩

/-- C5: member `C` of the parallel group; its agent succeeds. -/
def c5stepC : StepDef := ⟨"C", "agC", [], Option.none, Option.none, Option.none, []⟩

/-- C5: the flow configuration. -/
def c5cfg : FlowCfg :=
  ⟨[c5stepB, c5stepC], [("agB", retBeh .none), ("agC", retBeh (.str "ok"))], [], 0⟩

/-- C5: fresh state with the declared group `[B, C]`. -/
def c5state : FlowState := ⟨[], [["B", "C"]], .none⟩

/-- C5: the settled group run of `[B, C]` over empty outputs (member `B`
fails with the timeout-kind error, `C` succeeds), used by the witness of the
amended claim. -/
def c5groupRun : GroupRun :=
  ⟨[("B", .dict [("error", .str "Step \x27agB\x27 timed out after None seconds.")]),
    ("C", .str "ok")],
   [⟨"B",
     [Event.hookStepStart "B" (.str ""), Event.hookFlowStart "B" (.str ""),
      Event.invoke "B" 0, Event.record "B",
      Event.hookStepError "B" "Step \x27agB\x27 timed out after None seconds.",
      Event.hookFlowError "B" "Step \x27agB\x27 timed out after None seconds."],
     some ⟨.timeoutErrorKind, "Step \x27agB\x27 timed out after None seconds."⟩⟩,
    ⟨"C",
     [Event.hookStepStart "C" (.str ""), Event.hookFlowStart "C" (.str ""),
      Event.invoke "C" 0, Event.record "C",
      Event.hookFlowComplete "C" (.str "ok"), Event.hookStepComplete "C" (.str "ok")],
     Option.none⟩]⟩

/-- C7: step `A`, no dependencies. -/
def c7stepA : StepDef := ⟨"A", "ag", [], Option.none, Option.none, Option.none, []⟩

/-- C7: step `B`, no dependencies. -/
def c7stepB : StepDef := ⟨"B", "ag", [], Option.none, Option.none, Option.none, []⟩

/-- C7: step `C` depends on `B` but is grouped with `A`. -/
def c7stepC : StepDef := ⟨"C", "ag", [], Option.none, Option.none, Option.none, ["B"]⟩

/-- C7: the flow configuration. -/
def c7cfg : FlowCfg :=
  ⟨[c7stepA, c7stepB, c7stepC], [("ag", retBeh (.str "v"))], [], 0⟩

/-- C7: fresh state with the declared group `[A, C]`. -/
def c7state : FlowState := ⟨[], [["A", "C"]], .none⟩

/-- C3: step `S1`, unconditioned, in a (one-member) parallel group. -/
def c3stepS1 : StepDef := ⟨"S1", "ag", [], Option.none, Option.none, Option.none, []⟩

/-- C3: step `S2`, whose condition observes whether `step_outputs` already
holds an entry for `S2` — on a cleared-per-run engine it could never see one. -/
def c3stepS2 : StepDef :=
  ⟨"S2", "ag", [], Option.none, Option.none,
   some (fun outs => .bool ((dictGet outs "S2").isSome)), []⟩

/-- C3: the flow configuration. -/
def c3cfg : FlowCfg :=
  ⟨[c3stepS1, c3stepS2], [("ag", retBeh (.dict [("output", .str "v")]))], [], 0⟩

/-- C3: fresh state with the declared group `[S1]`. -/
def c3state : FlowState := ⟨[], [["S1"]], .none⟩

/-!
## Theorems for the claims -/

/-- C9.  With step `A` having recorded `\x7b"output": \x7b"value": 7\x7d\x7d`, the
placeholder `\x7b\x7bA.output.value\x7d\x7d` resolves to `7`; the alias `al`, declared for
the same `(A, "output.value")` pair, resolves to the same value; and
`\x7b\x7bA.output.missing\x7d\x7d` raises a resolution error whose message names step `A`
and the key `missing` — resolution is strict and never silently `None`. -/
theorem c9_placeholder_alias_and_strict_error :
    resolveValue c9ctx (.str "\x7b\x7bA.output.value\x7d\x7d") = .ok (.int 7)
    ∧ resolveValue c9ctx (.str "\x7b\x7bal\x7d\x7d") = .ok (.int 7)
    ∧ resolveValue c9ctx (.str "\x7b\x7bA.output.missing\x7d\x7d") =
        .error ⟨.chainless,
          "Dict key \x27missing\x27 not found in step \x27 A\x27."⟩
    ∧ strContains "Dict key \x27missing\x27 not found in step \x27 A\x27." "missing" = true
    ∧ strContains "Dict key \x27missing\x27 not found in step \x27 A\x27." "A" = true :=
  ⟨rfl, rfl, rfl, rfl, rfl⟩

/-- C6.  On the two-step cycle `A -> B -> A`, the run fails before any
runnable is invoked (no trace events at all), but the raised error is the
`ValueError` from 2-unpacking the `(u, v, direction)` triples that
`find_cycle(..., orientation="original")` returns — the cycle-naming
`RuntimeError` of the source is never built, so the error does not name the
cycle's steps. -/
theorem c6_cycle_fails_early_but_unpack_breaks_message :
    getExecutionOrder c6cfg.steps =
      .error ⟨.valueErrorKind, "too many values to unpack (expected 2)"⟩
    ∧ (taskFlowRun c6cfg freshState (.str "x")).2.1 = []
    ∧ (taskFlowRun c6cfg freshState (.str "x")).2.2 =
        .error ⟨.valueErrorKind, "too many values to unpack (expected 2)"⟩
    ∧ strContains "too many values to unpack (expected 2)" "A" = false :=
  ⟨rfl, rfl, rfl, rfl⟩

/-- C1.  A step whose runnable raises a plain exception on its only attempt
(retry budget 0) propagates `RuntimeError("S failed permanently: boom")`
directly from inside the retry loop: `step_outputs` receives **no**
`\x7berror: message\x7d` entry and **neither** `on_error` hook point is reached —
the `if last_exception:` block of lines 209-219 is bypassed by the raise at
line 203. -/
theorem c1_exhausted_budget_skips_record_and_error_hooks :
    (runStepAsync c1cfg (.str "i") [] c1step).result =
      .error ⟨.runtimeErrorKind, "S failed permanently: boom"⟩
    ∧ (runStepAsync c1cfg (.str "i") [] c1step).outputs = []
    ∧ stepErrorHookCount (runStepAsync c1cfg (.str "i") [] c1step).events "S" = 0
    ∧ flowErrorHookCount (runStepAsync c1cfg (.str "i") [] c1step).events "S" = 0
    ∧ (runStepAsync c1cfg (.str "i") [] c1step).events =
        [Event.hookStepStart "S" (.str ""), Event.hookFlowStart "S" (.str ""),
         Event.invoke "S" 0] :=
  ⟨rfl, rfl, rfl, rfl, rfl⟩

/-- C10.  Whenever the runnable invocation completes and returns `None` on
the first attempt — whether or not a timeout is configured, as long as no
deadline fired — the executor raises
`TimeoutError("Step '<agent>' timed out after <timeout> seconds.")`
(the step's possibly-`None` timeout value interpolated), breaks out of the
retry loop without consuming any retry budget (exactly one invocation,
whatever the budget), records `\x7berror: message\x7d` for the step, fires the
error hook points, and propagates the error. -/
theorem c10_none_output_is_timeout_without_retry
    (cfg : FlowCfg) (ii : Value) (outs : List (String × Value)) (step : StepDef)
    (beh : AgentBehavior) (ri : List (String × Value))
    (hres : resolveInputMap ⟨cfg.aliases, outs, ii⟩ step.inputMap = .ok ri)
    (hag : agentGet cfg.agents step.agentName = some beh)
    (hrun : beh.run (prepareInput ri) 0 = .returns Value.none)
    (hdl : deadlineFires step.timeout (beh.duration (prepareInput ri) 0) = false) :
    runStepAsync cfg ii outs step =
      ⟨dictSet outs step.stepName
          (.dict [("error", .str (noneTimeoutMsg step.agentName step.timeout))]),
       [Event.hookStepStart step.stepName (usrInputOf (prepareInput ri)),
        Event.hookFlowStart step.stepName (usrInputOf (prepareInput ri)),
        Event.invoke step.stepName 0,
        Event.record step.stepName,
        Event.hookStepError step.stepName (noneTimeoutMsg step.agentName step.timeout),
        Event.hookFlowError step.stepName (noneTimeoutMsg step.agentName step.timeout)],
       .error ⟨.timeoutErrorKind, noneTimeoutMsg step.agentName step.timeout⟩⟩ := by
  have hloop : stepLoop beh (prepareInput ri) step.timeout step.agentName
      step.stepName (step.retryOnFail.getD cfg.retryOnFail) 0 Option.none =
      (LoopExit.brokeErr ⟨.timeoutErrorKind,
        noneTimeoutMsg step.agentName step.timeout⟩, [0]) := by
    rw [stepLoop]
    simp [hdl, hrun]
  simp [runStepAsync, hres, hag, hloop]

/-- Witness for C10 at a concrete input: the flow `c10cfg` (agent returns
`None`, retry budget 5, no timeout) takes exactly the behaviour above, its
message reporting the `None` timeout. -/
theorem c10_witness :
    runStepAsync c10cfg (.str "i") [] c1step =
      ⟨[("S", .dict [("error",
          .str "Step \x27A\x27 timed out after None seconds.")])],
       [Event.hookStepStart "S" (.str ""), Event.hookFlowStart "S" (.str ""),
        Event.invoke "S" 0, Event.record "S",
        Event.hookStepError "S" "Step \x27A\x27 timed out after None seconds.",
        Event.hookFlowError "S" "Step \x27A\x27 timed out after None seconds."],
       .error ⟨.timeoutErrorKind, "Step \x27A\x27 timed out after None seconds."⟩⟩ :=
  c10_none_output_is_timeout_without_retry c10cfg (.str "i") [] c1step
    (retBeh .none) (dictSet [] "extra_inputs" (.dict [])) rfl rfl rfl rfl

/-- C2.  With an armed timeout `T` and every attempt overrunning the
deadline, each cancelled attempt re-enters the loop exactly like a runnable
exception — `anyio.move_on_after` swallows its own cancellation, the local
`output` is left unassigned and the `if output is None` check raises
`UnboundLocalError` into the generic `except` branch — so with budget `r` the
runnable is invoked `r + 1` times and the loop ends in the same permanent
`RuntimeError` raise as an exception-kind exhaustion, never in the
`TimeoutError` break. -/
theorem c2_timeout_consumes_budget_and_reenters
    (beh : AgentBehavior) (inp : List (String × Value)) (T : Nat)
    (an sn : String) (r t : Nat) (last : Option PyErr)
    (hT : T ≠ 0) (hdur : ∀ k, T ≤ beh.duration inp k) :
    (stepLoop beh inp (some T) an sn r t last).2.length = r + 1
    ∧ ∃ msg, (stepLoop beh inp (some T) an sn r t last).1 =
        .raisedPermanent ⟨.runtimeErrorKind, msg⟩ := by
  induction r generalizing t last with
  | zero =>
    have hfire : deadlineFires (some T) (beh.duration inp t) = true := by
      simp [deadlineFires, hT, hdur t]
    have hred : stepLoop beh inp (some T) an sn 0 t last =
        (LoopExit.raisedPermanent ⟨.runtimeErrorKind,
          permanentMsg sn ⟨.unboundLocalKind, unboundLocalMsg⟩⟩, [t]) := by
      rw [stepLoop]
      simp [hfire]
    exact ⟨by rw [hred]; rfl, ⟨permanentMsg sn ⟨.unboundLocalKind, unboundLocalMsg⟩,
      by rw [hred]⟩⟩
  | succ n ih =>
    have hfire : deadlineFires (some T) (beh.duration inp t) = true := by
      simp [deadlineFires, hT, hdur t]
    have hred : stepLoop beh inp (some T) an sn (n + 1) t last =
        ((stepLoop beh inp (some T) an sn n (t + 1)
            (some ⟨.unboundLocalKind, unboundLocalMsg⟩)).1,
         t :: (stepLoop beh inp (some T) an sn n (t + 1)
            (some ⟨.unboundLocalKind, unboundLocalMsg⟩)).2) := by
      conv_lhs => rw [stepLoop]
      simp [hfire]
    have h1 := (ih (t + 1) (some ⟨.unboundLocalKind, unboundLocalMsg⟩)).1
    obtain ⟨msg, hmsg⟩ := (ih (t + 1) (some ⟨.unboundLocalKind, unboundLocalMsg⟩)).2
    constructor
    · rw [hred]
      simp [h1]
    · exact ⟨msg, by rw [hred]; exact hmsg⟩

/-- Witness for C2 at a concrete input: a runnable overrunning a 1-second
timeout on every attempt, with budget 2, is invoked 3 times and ends in a
permanent `RuntimeError`. -/
theorem c2_witness :
    (stepLoop slowBeh [] (some 1) "A" "S" 2 0 Option.none).2.length = 2 + 1
    ∧ ∃ msg, (stepLoop slowBeh [] (some 1) "A" "S" 2 0 Option.none).1 =
        .raisedPermanent ⟨.runtimeErrorKind, msg⟩ :=
  c2_timeout_consumes_budget_and_reenters slowBeh [] 1 "A" "S" 2 0 Option.none
    (by decide) (fun k => by simp [slowBeh])

/-- C8.  A step whose declared condition, evaluated against the full
accumulated `step_outputs`, yields `False` after the `isinstance(.., bool)`
coercion (so any non-boolean result included, without raising) is skipped:
the loop iteration records exactly `\x7b"output": None, "skipped": True\x7d` under
the step's name and produces no other observable effect — no runnable
invocation and no start/complete hook point. -/
theorem c8_false_condition_skips_without_hooks
    (cfg : FlowCfg) (st : FlowState) (executed : List String) (name : String)
    (step : StepDef) (c : List (String × Value) → Value)
    (hx : executed.contains name = false)
    (hs : getStepByName cfg.steps name = some step)
    (ha : ¬ step.agentName = "")
    (hr : (agentGet cfg.agents step.agentName).isNone = false)
    (hc : step.condition = some c)
    (hcf : pyBoolCoerce (c st.outputs) = false) :
    processName cfg st executed name =
      .next { st with outputs := dictSet st.outputs name skippedDict } executed
        [Event.record name] := by
  have hx' : ¬ name ∈ executed := by simpa using hx
  simp [processName, hx', hs, ha, hr, hc, hcf]

/-- Witness for C8 at a concrete input: in the flow `c3cfg` on fresh state,
step `S2`'s condition returns `False`, so the iteration only records the
skip marker. -/
theorem c8_witness :
    processName c3cfg ⟨[], [], .str "i"⟩ [] "S2" =
      .next ⟨dictSet [] "S2" skippedDict, [], .str "i"⟩ []
        [Event.record "S2"] :=
  c8_false_condition_skips_without_hooks c3cfg ⟨[], [], .str "i"⟩ [] "S2"
    c3stepS2 (fun outs => .bool ((dictGet outs "S2").isSome))
    rfl rfl (by decide) rfl rfl rfl

/-- C4, counterexample.  The flow `c4cfg` declares a single step with step
name `S` and agent name `A`; its runnable records `\x7b"output": 7\x7d` under `S`.
The claim predicts the final output `7` (the `output` field of the last
declared step's result, keyed by step name), but `run` looks the result up
under the step's **agent name** `A`, finds nothing, and returns `None`. -/
theorem c4_counterexample_keyed_by_agent_name :
    dictGet (taskFlowRun c4cfg freshState (.str "i")).1.outputs "S" =
      some (.dict [("output", .int 7)])
    ∧ (taskFlowRun c4cfg freshState (.str "i")).2.2 = .ok Value.none
    ∧ (taskFlowRun c4cfg freshState (.str "i")).2.2 ≠ .ok (Value.int 7) := by
  refine ⟨rfl, rfl, fun h => ?_⟩
  rw [show (taskFlowRun c4cfg freshState (.str "i")).2.2 = .ok Value.none from rfl]
    at h
  injection h with h'
  cases h'

/-- C5, counterexample.  In the parallel group `[B, C]` where `B` fails with
a timeout-kind error and `C` succeeds, `C`'s output is recorded and the
aggregate error names only `B` — but the flow-level `on_step_error` hook
point is reached **twice** for `B`, not exactly once: once inside
`run_step_async`'s error block and once more in the aggregator's
per-member `except` handler. -/
theorem c5_counterexample_flow_error_hook_fires_twice :
    flowErrorHookCount (taskFlowRun c5cfg c5state (.str "i")).2.1 "B" = 2
    ∧ dictGet (taskFlowRun c5cfg c5state (.str "i")).1.outputs "C" =
        some (.str "ok")
    ∧ (taskFlowRun c5cfg c5state (.str "i")).2.2 =
        .error ⟨.chainless,
          "Parallel group failed: B: Step \x27agB\x27 timed out after None seconds."⟩
    ∧ strContains
        "Parallel group failed: B: Step \x27agB\x27 timed out after None seconds."
        "C" = false :=
  ⟨rfl, rfl, rfl, rfl⟩

/-- C7, counterexample.  In the acyclic flow `A, B, C` with `C` depending on
`B` and the parallel group `[A, C]`, the walk meets `A` first and runs the
whole group at once: `C`'s runnable is invoked before `B` has settled (the
invocation order is `A, C, B`), so "every step executes strictly after all
its dependencies have settled" fails as soon as a parallel group contains a
step whose dependency lies outside the group. -/
theorem c7_counterexample_group_member_runs_before_dependency :
    invokedSteps (taskFlowRun c7cfg c7state (.str "i")).2.1 = ["A", "C", "B"]
    ∧ c7stepC.dependsOn = ["B"]
    ∧ depSettledBefore (taskFlowRun c7cfg c7state (.str "i")).2.1 "B" "C" = false :=
  ⟨rfl, rfl, rfl⟩

/-- C3, counterexample.  Running the flow `c3cfg` (group `[S1]`, and `S2`
conditioned on whether `step_outputs` already holds an `S2` entry) twice on
the same instance: the first run skips `S2` and consumes the group; the
second run starts from the first run's un-cleared `step_outputs`, so `S2`'s
condition now sees the stale `S2` entry and the step runs — first-run state
is visible during the second run, and the parallel group is no longer in
effect. -/
theorem c3_counterexample_state_leaks_across_runs :
    (taskFlowRun c3cfg c3state (.str "i")).1.parallelGroups = []
    ∧ c3state.parallelGroups = [["S1"]]
    ∧ dictGet (taskFlowRun c3cfg c3state (.str "i")).1.outputs "S2" =
        some skippedDict
    ∧ dictGet (taskFlowRun c3cfg
          (taskFlowRun c3cfg c3state (.str "i")).1 (.str "i")).1.outputs "S2" =
        some (.dict [("output", .str "v")]) :=
  ⟨rfl, rfl, rfl, rfl⟩

/-!
## Helper lemmas shared by the remaining claims -/

/-- `dictSet` stores under its key. -/
theorem dictGet_dictSet_self (es : List (String × Value)) (k : String) (v : Value) :
    dictGet (dictSet es k v) k = some v := by
  induction es with
  | nil => simp [dictSet, dictGet]
  | cons hd tl ih =>
    obtain ⟨k', v'⟩ := hd
    by_cases h : k' = k
    · simp [dictSet, dictGet, h]
    · simp [dictSet, dictGet, h, ih]

/-- `dictSet` leaves other keys untouched. -/
theorem dictGet_dictSet_ne (es : List (String × Value)) (k' k : String) (v : Value)
    (h : k' ≠ k) : dictGet (dictSet es k' v) k = dictGet es k := by
  induction es with
  | nil => simp [dictSet, dictGet, h]
  | cons hd tl ih =>
    obtain ⟨k0, v0⟩ := hd
    by_cases h0 : k0 = k'
    · simp [dictSet, dictGet, h0, h]
    · simp [dictSet, dictGet, h0, ih]

/-- `dictSet` never removes a present key. -/
theorem dictGet_isSome_dictSet (es : List (String × Value)) (k' k : String)
    (v : Value) (h : (dictGet es k).isSome = true) :
    (dictGet (dictSet es k' v) k).isSome = true := by
  by_cases hk : k' = k
  · subst hk; simp [dictGet_dictSet_self]
  · rw [dictGet_dictSet_ne es k' k v hk]; exact h

mutual

/-- `to_serializable` is the identity on the plain-value domain. -/
theorem cleanValue_id : (v : Value) → cleanValue v = v
  | .none => rfl
  | .bool _ => rfl
  | .int _ => rfl
  | .str _ => rfl
  | .list xs => by rw [cleanValue, cleanVList_id]
  | .dict es => by rw [cleanValue, cleanVDict_id]

/-- `to_serializable` is the identity on value lists. -/
theorem cleanVList_id : (xs : List Value) → cleanVList xs = xs
  | [] => rfl
  | v :: vs => by rw [cleanVList, cleanValue_id, cleanVList_id]

/-- `to_serializable` is the identity on dict entries. -/
theorem cleanVDict_id : (es : List (String × Value)) → cleanVDict es = es
  | [] => rfl
  | (k, v) :: es => by rw [cleanVDict, cleanValue_id, cleanVDict_id]

end

/-- The run's extraction chain agrees with the spec-side `finalOutputSpec`. -/
theorem specExtract_eq (steps : List StepDef) (outs : List (String × Value)) :
    flowFinalOutput (cleanValue (lastDeclaredExtract steps outs)) =
      finalOutputSpec steps outs := by
  rw [cleanValue_id]
  rfl

/-- `run_step_async` either leaves `step_outputs` unchanged (permanent raise
or pre-loop error) or writes exactly its own step's key. -/
theorem runStep_outputs_shape (cfg : FlowCfg) (ii : Value)
    (outs : List (String × Value)) (step : StepDef) :
    (runStepAsync cfg ii outs step).outputs = outs ∨
    ∃ v, (runStepAsync cfg ii outs step).outputs = dictSet outs step.stepName v := by
  cases hres : resolveInputMap ⟨cfg.aliases, outs, ii⟩ step.inputMap with
  | error e => left; simp [runStepAsync, hres]
  | ok resolved =>
    cases hag : agentGet cfg.agents step.agentName with
    | none => left; simp [runStepAsync, hres, hag]
    | some beh =>
      cases hl : stepLoop beh (prepareInput resolved) step.timeout step.agentName
          step.stepName (step.retryOnFail.getD cfg.retryOnFail) 0 Option.none with
      | mk exit attempts =>
        cases exit with
        | success v stale =>
          cases stale with
          | none =>
            right; exact ⟨v, by simp [runStepAsync, hres, hag, hl]⟩
          | some e =>
            right
            exact ⟨.dict [("error", .str e.msg)], by simp [runStepAsync, hres, hag, hl]⟩
        | brokeErr e =>
          right
          exact ⟨.dict [("error", .str e.msg)], by simp [runStepAsync, hres, hag, hl]⟩
        | raisedPermanent e => left; simp [runStepAsync, hres, hag, hl]

/-- Keys present in `step_outputs` survive `run_step_async`. -/
theorem runStep_outputs_keyMono (cfg : FlowCfg) (ii : Value)
    (outs : List (String × Value)) (step : StepDef) (k : String)
    (h : (dictGet outs k).isSome = true) :
    (dictGet (runStepAsync cfg ii outs step).outputs k).isSome = true := by
  rcases runStep_outputs_shape cfg ii outs step with hs | ⟨v, hs⟩
  · rw [hs]; exact h
  · rw [hs]; exact dictGet_isSome_dictSet outs step.stepName k v h

/-- `list.remove` yields a sublist. -/
theorem removeFirst_sublist (gs : List (List String)) (g : List String) :
    (removeFirst gs g).Sublist gs := by
  induction gs with
  | nil => simp [removeFirst]
  | cons x xs ih =>
    by_cases hx : x = g
    · simp only [removeFirst, if_pos hx]
      exact (List.Sublist.refl xs).cons x
    · simp only [removeFirst, if_neg hx]
      exact ih.cons₂ x

/-- Keys present in `step_outputs` survive a parallel group, whether the
group settles or aborts on a missing member declaration. -/
theorem runGroupMembers_keyMono (cfg : FlowCfg) (ii : Value) (ex : List String) :
    ∀ (names : List String) (outs : List (String × Value))
      (acc : List MemberOutcome) (k : String),
      (dictGet outs k).isSome = true →
      (∀ gr, runGroupMembers cfg ii ex names outs acc = .ok gr →
        (dictGet gr.outputs k).isSome = true)
      ∧ (∀ o m e, runGroupMembers cfg ii ex names outs acc = .error (o, m, e) →
        (dictGet o k).isSome = true)
  | [], outs, acc, k => by
    intro h
    refine ⟨fun gr hgr => ?_, fun o m e he => ?_⟩
    · rw [show runGroupMembers cfg ii ex [] outs acc = .ok ⟨outs, acc⟩ from rfl]
        at hgr
      cases hgr
      exact h
    · rw [show runGroupMembers cfg ii ex [] outs acc = .ok ⟨outs, acc⟩ from rfl]
        at he
      cases he
  | n :: rest, outs, acc, k => by
    intro h
    by_cases hex : n ∈ ex
    · have hunf : runGroupMembers cfg ii ex (n :: rest) outs acc =
          runGroupMembers cfg ii ex rest outs acc := by
        simp [runGroupMembers, hex]
      have ih := runGroupMembers_keyMono cfg ii ex rest outs acc k h
      rw [hunf]
      exact ih
    · cases hstep : getStepByName cfg.steps n with
      | none =>
        have hunf : runGroupMembers cfg ii ex (n :: rest) outs acc =
            .error (outs, acc, ⟨.chainless,
              "Step \x27" ++ n ++ "\x27 does not exist in the task flow."⟩) := by
          simp [runGroupMembers, hex, hstep]
        rw [hunf]
        refine ⟨fun gr hgr => ?_, fun o m e he => ?_⟩
        · cases hgr
        · cases he
          exact h
      | some step =>
        have h' := runStep_outputs_keyMono cfg ii outs step k h
        have hunf : runGroupMembers cfg ii ex (n :: rest) outs acc =
            runGroupMembers cfg ii ex rest (runStepAsync cfg ii outs step).outputs
              (acc ++ [⟨n, (runStepAsync cfg ii outs step).events,
                match (runStepAsync cfg ii outs step).result with
                | .ok _ => Option.none
                | .error e => some e⟩]) := by
          simp [runGroupMembers, hex, hstep]
        rw [hunf]
        exact runGroupMembers_keyMono cfg ii ex rest
          (runStepAsync cfg ii outs step).outputs _ k h'

/-- One walk iteration never deletes a `step_outputs` key and only ever
removes (never adds) parallel-group declarations. -/
theorem processName_preserves (cfg : FlowCfg) (st : FlowState)
    (ex : List String) (name : String) :
    (∀ st' ex' evs, processName cfg st ex name = .next st' ex' evs →
      (∀ k, (dictGet st.outputs k).isSome = true →
        (dictGet st'.outputs k).isSome = true)
      ∧ st'.parallelGroups.Sublist st.parallelGroups)
    ∧ (∀ st' evs e, processName cfg st ex name = .halt st' evs e →
      (∀ k, (dictGet st.outputs k).isSome = true →
        (dictGet st'.outputs k).isSome = true)
      ∧ st'.parallelGroups.Sublist st.parallelGroups) := by
  by_cases hex : name ∈ ex
  · have hunf : processName cfg st ex name = .next st ex [] := by
      simp [processName, hex]
    rw [hunf]
    refine ⟨fun st' ex' evs h => ?_, fun st' evs e h => ?_⟩
    · cases h
      exact ⟨fun k hk => hk, .refl _⟩
    · cases h
  · cases hstep : getStepByName cfg.steps name with
    | none =>
      have hunf : processName cfg st ex name = .halt st []
          ⟨.chainless, "Step \x27" ++ name ++ "\x27 does not exist in the task flow."⟩ := by
        simp [processName, hex, hstep]
      rw [hunf]
      refine ⟨fun st' ex' evs h => ?_, fun st' evs e h => ?_⟩
      · cases h
      · cases h
        exact ⟨fun k hk => hk, .refl _⟩
    | some step =>
      by_cases han : step.agentName = ""
      · have hunf : processName cfg st ex name = .halt st []
            ⟨.chainless, "Step \x27\x27" ++ name ++ " must have an assigned agent."⟩ := by
          simp [processName, hex, hstep, han]
        rw [hunf]
        refine ⟨fun st' ex' evs h => ?_, fun st' evs e h => ?_⟩
        · cases h
        · cases h
          exact ⟨fun k hk => hk, .refl _⟩
      · cases hag : agentGet cfg.agents step.agentName with
        | none =>
          have hunf : processName cfg st ex name = .halt st []
              ⟨.chainless, "Agent \x27" ++ step.agentName ++ "\x27 for step \x27" ++
                name ++ "\x27 is not registered."⟩ := by
            simp [processName, hex, hstep, han, hag]
          rw [hunf]
          refine ⟨fun st' ex' evs h => ?_, fun st' evs e h => ?_⟩
          · cases h
          · cases h
            exact ⟨fun k hk => hk, .refl _⟩
        | some beh =>
          by_cases hp : (match step.condition with
            | Option.none => true
            | some c => pyBoolCoerce (c st.outputs)) = false
          · have hunf : processName cfg st ex name =
                .next ⟨dictSet st.outputs name skippedDict, st.parallelGroups,
                  st.initialInput⟩ ex [Event.record name] := by
              simp only [processName]
              rw [if_neg (by simpa using hex), hstep]
              simp [han, hag, hp]
            rw [hunf]
            refine ⟨fun st' ex' evs h => ?_, fun st' evs e h => ?_⟩
            · cases h
              exact ⟨fun k hk => dictGet_isSome_dictSet _ _ _ _ hk, .refl _⟩
            · cases h
          · have hp' : (match step.condition with
                | Option.none => true
                | some c => pyBoolCoerce (c st.outputs)) = true := by
              revert hp
              cases (match step.condition with
                | Option.none => true
                | some c => pyBoolCoerce (c st.outputs))
              · intro hp
                exact absurd rfl hp
              · intro _
                rfl
            cases hg : findGroup st.parallelGroups name with
            | none =>
              cases hres : (runStepAsync cfg st.initialInput st.outputs step).result with
              | ok v =>
                have hunf : processName cfg st ex name =
                    .next ⟨(runStepAsync cfg st.initialInput st.outputs step).outputs,
                        st.parallelGroups, st.initialInput⟩
                      (ex ++ [name])
                      (runStepAsync cfg st.initialInput st.outputs step).events := by
                  simp only [processName]
                  rw [if_neg (by simpa using hex), hstep]
                  simp [han, hag, hp', hg, hres]
                rw [hunf]
                refine ⟨fun st' ex' evs h => ?_, fun st' evs e h => ?_⟩
                · cases h
                  exact ⟨fun k hk => runStep_outputs_keyMono cfg st.initialInput
                    st.outputs step k hk, .refl _⟩
                · cases h
              | error e0 =>
                have hunf : processName cfg st ex name =
                    .halt ⟨(runStepAsync cfg st.initialInput st.outputs step).outputs,
                        st.parallelGroups, st.initialInput⟩
                      (runStepAsync cfg st.initialInput st.outputs step).events e0 := by
                  simp only [processName]
                  rw [if_neg (by simpa using hex), hstep]
                  simp [han, hag, hp', hg, hres]
                rw [hunf]
                refine ⟨fun st' ex' evs h => ?_, fun st' evs e h => ?_⟩
                · cases h
                · cases h
                  exact ⟨fun k hk => runStep_outputs_keyMono cfg st.initialInput
                    st.outputs step k hk, .refl _⟩
            | some g =>
              cases hgr : runGroupMembers cfg st.initialInput ex g st.outputs [] with
              | error tup =>
                obtain ⟨o, m, e0⟩ := tup
                have hunf : processName cfg st ex name =
                    .halt ⟨o, st.parallelGroups, st.initialInput⟩ (groupEvents m) e0 := by
                  simp only [processName]
                  rw [if_neg (by simpa using hex), hstep]
                  simp [han, hag, hp', hg, hgr]
                rw [hunf]
                refine ⟨fun st' ex' evs h => ?_, fun st' evs e h => ?_⟩
                · cases h
                · cases h
                  refine ⟨fun k hk => ?_, .refl _⟩
                  exact (runGroupMembers_keyMono cfg st.initialInput ex g st.outputs
                    [] k hk).2 o m e0 hgr
              | ok gr =>
                by_cases herrs : (groupErrors gr.members).isEmpty = true
                · have hunf : processName cfg st ex name =
                      .next ⟨gr.outputs, removeFirst st.parallelGroups g,
                          st.initialInput⟩
                        (ex ++ groupSuccesses gr.members) (groupEvents gr.members) := by
                    simp only [processName]
                    rw [if_neg (by simpa using hex), hstep]
                    simp [han, hag, hp', hg, hgr, herrs]
                  rw [hunf]
                  refine ⟨fun st' ex' evs h => ?_, fun st' evs e h => ?_⟩
                  · cases h
                    refine ⟨fun k hk => ?_, removeFirst_sublist _ _⟩
                    exact (runGroupMembers_keyMono cfg st.initialInput ex g st.outputs
                      [] k hk).1 gr hgr
                  · cases h
                · have herrs' : (groupErrors gr.members).isEmpty = false := by
                    revert herrs
                    cases (groupErrors gr.members).isEmpty
                    · intro _
                      rfl
                    · intro herrs
                      exact absurd rfl herrs
                  have hunf : processName cfg st ex name =
                      .halt ⟨gr.outputs, st.parallelGroups, st.initialInput⟩
                        (groupEvents gr.members)
                        ⟨.chainless, aggMsg (groupErrors gr.members)⟩ := by
                    simp only [processName]
                    rw [if_neg (by simpa using hex), hstep]
                    simp [han, hag, hp', hg, hgr, herrs']
                  rw [hunf]
                  refine ⟨fun st' ex' evs h => ?_, fun st' evs e h => ?_⟩
                  · cases h
                  · cases h
                    refine ⟨fun k hk => ?_, .refl _⟩
                    exact (runGroupMembers_keyMono cfg st.initialInput ex g st.outputs
                      [] k hk).1 gr hgr

/-- The whole walk preserves `step_outputs` keys and only consumes groups. -/
theorem walkFrom_preserves (cfg : FlowCfg) :
    ∀ (order : List String) (st : FlowState) (ex : List String),
      (∀ k, (dictGet st.outputs k).isSome = true →
        (dictGet (walkFrom cfg order st ex).state.outputs k).isSome = true)
      ∧ (walkFrom cfg order st ex).state.parallelGroups.Sublist st.parallelGroups
  | [], st, ex => ⟨fun k hk => hk, .refl _⟩
  | n :: rest, st, ex => by
    cases hp : processName cfg st ex n with
    | halt st' evs e =>
      have hw : walkFrom cfg (n :: rest) st ex = ⟨st', evs, some e⟩ := by
        simp [walkFrom, hp]
      rw [hw]
      exact (processName_preserves cfg st ex n).2 st' evs e hp
    | next st' ex' evs =>
      have hw : (walkFrom cfg (n :: rest) st ex).state =
          (walkFrom cfg rest st' ex').state := by
        simp [walkFrom, hp]
      rw [hw]
      have h1 := (processName_preserves cfg st ex n).1 st' ex' evs hp
      have h2 := walkFrom_preserves cfg rest st' ex'
      exact ⟨fun k hk => h2.1 k (h1.1 k hk), h2.2.trans h1.2⟩

/-- C4, amended.  For every completed run, the FlowResult's final output is
taken from `step_outputs` under the last declared step's **agent name** (not
its step name): a missing key yields the empty mapping; a mapping entry
contributes its `"output"` field (`None` when the field is absent, rather
than the raw mapping), any other entry contributes itself; and
`FlowOutput.from_flow_output` unwraps a resulting mapping's `"output"` field
once more. -/
theorem c4_amended_final_output_keyed_by_agent_name
    (cfg : FlowCfg) (st : FlowState) (input : Value)
    (_hne : cfg.steps ≠ []) (out : Value)
    (hok : (taskFlowRun cfg st input).2.2 = .ok out) :
    out = finalOutputSpec cfg.steps (taskFlowRun cfg st input).1.outputs := by
  rcases horder : getExecutionOrder cfg.steps with e | order
  · simp [taskFlowRun, horder] at hok
  · rcases herr : (walkFrom cfg order { st with initialInput := input } []).err with _ | e
    · simp [taskFlowRun, horder, herr] at hok ⊢
      rw [← hok, specExtract_eq]
    · simp [taskFlowRun, horder, herr] at hok

/-- Witness for the amended C4 at a concrete input: the run of `c4cfg`
completes with final output `None`, which is what the agent-name-keyed
extraction of its recorded outputs yields. -/
theorem c4_amended_witness :
    Value.none =
      finalOutputSpec c4cfg.steps (taskFlowRun c4cfg freshState (.str "i")).1.outputs :=
  c4_amended_final_output_keyed_by_agent_name c4cfg freshState (.str "i")
    (List.cons_ne_nil _ _) Value.none rfl

/-- C3, amended.  Two consecutive `run` calls on the same flow instance share
its mutable state: `step_outputs` is never cleared — every key present before
a run is still present (possibly overwritten) after it, so first-run results
remain visible during the second run until the owning step re-records — the
runnable registry and step/alias declarations are immutable configuration,
and the parallel-group list only ever shrinks: a group consumed by a
successful first run is no longer in effect on the second. -/
theorem c3_amended_state_persists_across_runs
    (cfg : FlowCfg) (st : FlowState) (input : Value) :
    (∀ k, (dictGet st.outputs k).isSome = true →
      (dictGet (taskFlowRun cfg st input).1.outputs k).isSome = true)
    ∧ (taskFlowRun cfg st input).1.parallelGroups.Sublist st.parallelGroups := by
  rcases horder : getExecutionOrder cfg.steps with e | order
  · have : (taskFlowRun cfg st input).1 = { st with initialInput := input } := by
      simp [taskFlowRun, horder]
    rw [this]
    exact ⟨fun k hk => hk, .refl _⟩
  · have hW := walkFrom_preserves cfg order { st with initialInput := input } []
    rcases herr : (walkFrom cfg order { st with initialInput := input } []).err with _ | e
    · have : (taskFlowRun cfg st input).1 =
          (walkFrom cfg order { st with initialInput := input } []).state := by
        simp [taskFlowRun, horder, herr]
      rw [this]
      exact hW
    · have : (taskFlowRun cfg st input).1 =
          (walkFrom cfg order { st with initialInput := input } []).state := by
        simp [taskFlowRun, horder, herr]
      rw [this]
      exact hW

/-- Witness for the amended C3 at a concrete input: a pre-existing
`step_outputs` key `X` survives a full run of `c3cfg`, whose group list
shrinks to a sublist of the declared one. -/
theorem c3_amended_witness :
    (dictGet (taskFlowRun c3cfg ⟨[("X", .int 1)], [["S1"]], .none⟩
        (.str "i")).1.outputs "X").isSome = true
    ∧ (taskFlowRun c3cfg ⟨[("X", .int 1)], [["S1"]], .none⟩
        (.str "i")).1.parallelGroups.Sublist [["S1"]] :=
  ⟨(c3_amended_state_persists_across_runs c3cfg ⟨[("X", .int 1)], [["S1"]], .none⟩
      (.str "i")).1 "X" rfl,
   (c3_amended_state_persists_across_runs c3cfg ⟨[("X", .int 1)], [["S1"]], .none⟩
      (.str "i")).2⟩


/-- `_get_step_by_name` returns a step carrying the requested name. -/
theorem getStepByName_name :
    ∀ (steps : List StepDef) (n : String) (s : StepDef),
      getStepByName steps n = some s → s.stepName = n
  | [], n, s => by intro h; simp [getStepByName] at h
  | hd :: tl, n, s => by
    intro h
    by_cases hh : hd.stepName = n
    · rw [show getStepByName (hd :: tl) n = some hd by simp [getStepByName, hh]] at h
      cases h
      exact hh
    · rw [show getStepByName (hd :: tl) n = getStepByName tl n by
        simp [getStepByName, hh]] at h
      exact getStepByName_name tl n s h

/-- A step returning normally has recorded exactly its raw output. -/
theorem runStep_ok_outputs (cfg : FlowCfg) (ii : Value)
    (outs : List (String × Value)) (step : StepDef) (v : Value)
    (h : (runStepAsync cfg ii outs step).result = .ok v) :
    (runStepAsync cfg ii outs step).outputs = dictSet outs step.stepName v := by
  cases hres : resolveInputMap ⟨cfg.aliases, outs, ii⟩ step.inputMap with
  | error e => simp [runStepAsync, hres] at h
  | ok resolved =>
    cases hag : agentGet cfg.agents step.agentName with
    | none => simp [runStepAsync, hres, hag] at h
    | some beh =>
      cases hl : stepLoop beh (prepareInput resolved) step.timeout step.agentName
          step.stepName (step.retryOnFail.getD cfg.retryOnFail) 0 Option.none with
      | mk exit attempts =>
        cases exit with
        | success w stale =>
          cases stale with
          | none =>
            have hv : w = v := by
              have := h
              simp [runStepAsync, hres, hag, hl] at this
              exact this
            subst hv
            simp [runStepAsync, hres, hag, hl]
          | some e => simp [runStepAsync, hres, hag, hl] at h
        | brokeErr e => simp [runStepAsync, hres, hag, hl] at h
        | raisedPermanent e => simp [runStepAsync, hres, hag, hl] at h

/-- Flow-level error-hook counting distributes over concatenation. -/
theorem flowErrorHookCount_append (a b : List Event) (n : String) :
    flowErrorHookCount (a ++ b) n = flowErrorHookCount a n + flowErrorHookCount b n := by
  simp [flowErrorHookCount, List.filter_append]

/-- In a settled group's trace, the flow-level `on_step_error` count for a
name is the members' own executor firings plus exactly one aggregator
firing per failing member of that name. -/
theorem flowErrorHookCount_group :
    ∀ (ms : List MemberOutcome) (n : String),
      flowErrorHookCount (groupEvents ms) n =
        (ms.map (fun m => flowErrorHookCount m.events n)).sum +
          ((groupErrors ms).filter (fun p => p.1 = n)).length
  | [], n => by simp [groupEvents, groupErrors, flowErrorHookCount]
  | m :: ms, n => by
    have ih := flowErrorHookCount_group ms n
    cases hf : m.failed with
    | none =>
      have h1 : groupEvents (m :: ms) = m.events ++ groupEvents ms := by
        simp [groupEvents, hf]
      have h2 : groupErrors (m :: ms) = groupErrors ms := by
        simp [groupErrors, hf]
      rw [h1, h2, flowErrorHookCount_append]
      simp [ih]
      omega
    | some e =>
      have h1 : groupEvents (m :: ms) =
          (m.events ++ [Event.hookFlowError m.name e.msg]) ++ groupEvents ms := by
        simp [groupEvents, hf]
      have h2 : groupErrors (m :: ms) = (m.name, e) :: groupErrors ms := by
        simp [groupErrors, hf]
      have hmap : (List.map (fun m => flowErrorHookCount m.events n) (m :: ms)).sum =
          flowErrorHookCount m.events n +
            (List.map (fun m => flowErrorHookCount m.events n) ms).sum := by
        simp
      rw [h1, flowErrorHookCount_append, flowErrorHookCount_append, ih, h2, hmap]
      by_cases hn : m.name = n
      · have hs : flowErrorHookCount [Event.hookFlowError m.name e.msg] n = 1 := by
          simp [flowErrorHookCount, hn]
        have hc : ((((m.name, e)) :: groupErrors ms).filter
            (fun p => p.1 = n)).length =
            1 + ((groupErrors ms).filter (fun p => p.1 = n)).length := by
          simp [List.filter_cons, hn]
          omega
        rw [hs, hc]
        omega
      · have hs : flowErrorHookCount [Event.hookFlowError m.name e.msg] n = 0 := by
          simp [flowErrorHookCount, hn]
        have hc : ((((m.name, e)) :: groupErrors ms).filter
            (fun p => p.1 = n)).length =
            ((groupErrors ms).filter (fun p => p.1 = n)).length := by
          simp [List.filter_cons, hn]
        rw [hs, hc]
        omega

/-- Every processed group member settles: the member loop runs each
non-executed member through the step executor, recording successes. -/
theorem runGroupMembers_spec (cfg : FlowCfg) (ii : Value) (ex : List String) :
    ∀ (names : List String) (outs : List (String × Value))
      (acc : List MemberOutcome),
      (∀ n ∈ names, n ∉ ex → (getStepByName cfg.steps n).isSome = true) →
      (∀ m ∈ acc, m.failed = Option.none → (dictGet outs m.name).isSome = true) →
      ∃ gr, runGroupMembers cfg ii ex names outs acc = .ok gr
        ∧ gr.members.map (fun m => m.name) =
            acc.map (fun m => m.name) ++ names.filter (fun n => !ex.contains n)
        ∧ (∀ m ∈ gr.members, m.failed = Option.none →
            (dictGet gr.outputs m.name).isSome = true)
  | [], outs, acc => by
    intro _ hacc
    refine ⟨⟨outs, acc⟩, rfl, by simp, ?_⟩
    intro m hm hf
    exact hacc m hm hf
  | n :: rest, outs, acc => by
    intro hst hacc
    by_cases hex : n ∈ ex
    · have hunf : runGroupMembers cfg ii ex (n :: rest) outs acc =
          runGroupMembers cfg ii ex rest outs acc := by
        simp [runGroupMembers, hex]
      obtain ⟨gr, h1, h2, h3⟩ := runGroupMembers_spec cfg ii ex rest outs acc
        (fun m hm => hst m (List.mem_cons_of_mem n hm)) hacc
      refine ⟨gr, by rw [hunf]; exact h1, ?_, h3⟩
      rw [h2]
      have : List.filter (fun n => !ex.contains n) (n :: rest) =
          List.filter (fun n => !ex.contains n) rest := by
        simp [List.filter_cons, hex]
      rw [this]
    · obtain ⟨step, hstep⟩ := Option.isSome_iff_exists.mp
        (hst n (List.mem_cons_self n rest) hex)
      have hname : step.stepName = n := getStepByName_name cfg.steps n step hstep
      have hunf : runGroupMembers cfg ii ex (n :: rest) outs acc =
          runGroupMembers cfg ii ex rest (runStepAsync cfg ii outs step).outputs
            (acc ++ [⟨n, (runStepAsync cfg ii outs step).events,
              match (runStepAsync cfg ii outs step).result with
              | .ok _ => Option.none
              | .error e => some e⟩]) := by
        simp [runGroupMembers, hex, hstep]
      have hacc' : ∀ m ∈ (acc ++ [(⟨n, (runStepAsync cfg ii outs step).events,
          match (runStepAsync cfg ii outs step).result with
          | .ok _ => Option.none
          | .error e => some e⟩ : MemberOutcome)]),
          m.failed = Option.none →
          (dictGet (runStepAsync cfg ii outs step).outputs m.name).isSome = true := by
        intro m hm hf
        rcases List.mem_append.mp hm with hold | hnew
        · exact runStep_outputs_keyMono cfg ii outs step m.name (hacc m hold hf)
        · rw [List.mem_singleton] at hnew
          subst hnew
          cases hres : (runStepAsync cfg ii outs step).result with
          | error e => simp [hres] at hf
          | ok v =>
            have := runStep_ok_outputs cfg ii outs step v hres
            rw [this]
            simp [hname, dictGet_dictSet_self]
      obtain ⟨gr, h1, h2, h3⟩ := runGroupMembers_spec cfg ii ex rest
        (runStepAsync cfg ii outs step).outputs _
        (fun m hm => hst m (List.mem_cons_of_mem n hm)) hacc'
      refine ⟨gr, by rw [hunf]; exact h1, ?_, h3⟩
      rw [h2]
      have : List.filter (fun n => !ex.contains n) (n :: rest) =
          n :: List.filter (fun n => !ex.contains n) rest := by
        simp [List.filter_cons, hex]
      rw [this]
      simp

/-- An aggregated `(name, error)` pair comes from a failing member. -/
theorem groupErrors_mem (ms : List MemberOutcome) (p : String × PyErr)
    (hp : p ∈ groupErrors ms) : ∃ m ∈ ms, m.name = p.1 ∧ m.failed = some p.2 := by
  unfold groupErrors at hp
  obtain ⟨m, hm, hf⟩ := List.mem_filterMap.mp hp
  obtain ⟨e, he, hpe⟩ := Option.map_eq_some'.mp hf
  refine ⟨m, hm, ?_, ?_⟩
  · rw [← hpe]
  · rw [he, ← hpe]

/-- A name in `results.keys()` comes from a succeeding member. -/
theorem groupSuccesses_mem (ms : List MemberOutcome) (x : String)
    (hx : x ∈ groupSuccesses ms) : ∃ m ∈ ms, m.name = x ∧ m.failed = Option.none := by
  unfold groupSuccesses at hx
  obtain ⟨m, hm, hname⟩ := List.mem_map.mp hx
  rw [List.mem_filter] at hm
  exact ⟨m, hm.1, hname, by simpa using hm.2⟩

/-- C5, amended.  Every non-executed member of a parallel group is run to
completion through the step executor, each failure caught individually;
succeeding members' outputs are recorded in `step_outputs`; the aggregated
pairs name exactly the failing members and never a succeeding one; the
flow-level `on_error` hook fires once per failing member **at the aggregator
level, in addition to the firings the step executor itself performed for that
member** (so a timeout-kind member failure sees it twice); and when any
member failed, the walk raises exactly one aggregated `ChainlessError`
listing every `(step_name, error)` pair. -/
theorem c5_amended_parallel_group_aggregation :
    (∀ (cfg : FlowCfg) (ii : Value) (ex : List String) (names : List String)
        (outs : List (String × Value)),
      (∀ n ∈ names, n ∉ ex → (getStepByName cfg.steps n).isSome = true) →
      names.Nodup →
      ∃ gr, runGroupMembers cfg ii ex names outs [] = .ok gr
        ∧ gr.members.map (fun m => m.name) =
            names.filter (fun n => !ex.contains n)
        ∧ (∀ m ∈ gr.members, m.failed = Option.none →
            (dictGet gr.outputs m.name).isSome = true)
        ∧ (∀ p ∈ groupErrors gr.members,
            p.1 ∈ names ∧ p.1 ∉ groupSuccesses gr.members)
        ∧ (∀ n, flowErrorHookCount (groupEvents gr.members) n =
            (gr.members.map (fun m => flowErrorHookCount m.events n)).sum +
              ((groupErrors gr.members).filter (fun p => p.1 = n)).length))
    ∧ (∀ (cfg : FlowCfg) (st : FlowState) (ex : List String) (name : String)
        (step : StepDef) (g : List String) (gr : GroupRun),
      name ∉ ex →
      getStepByName cfg.steps name = some step →
      ¬ step.agentName = "" →
      (agentGet cfg.agents step.agentName).isSome = true →
      step.condition = Option.none →
      findGroup st.parallelGroups name = some g →
      runGroupMembers cfg st.initialInput ex g st.outputs [] = .ok gr →
      groupErrors gr.members ≠ [] →
      processName cfg st ex name =
        .halt ⟨gr.outputs, st.parallelGroups, st.initialInput⟩
          (groupEvents gr.members)
          ⟨.chainless, aggMsg (groupErrors gr.members)⟩) := by
  constructor
  · intro cfg ii ex names outs hst hnd
    obtain ⟨gr, h1, h2, h3⟩ := runGroupMembers_spec cfg ii ex names outs []
      hst (fun m hm => by cases hm)
    rw [List.map_nil, List.nil_append] at h2
    have hndm : (gr.members.map (fun m => m.name)).Nodup := by
      rw [h2]
      exact hnd.filter _
    refine ⟨gr, h1, h2, h3, ?_, fun n => flowErrorHookCount_group gr.members n⟩
    intro p hp
    obtain ⟨m, hm, hmn, hmf⟩ := groupErrors_mem gr.members p hp
    constructor
    · have : m.name ∈ gr.members.map (fun m => m.name) := List.mem_map_of_mem _ hm
      rw [h2] at this
      rw [← hmn]
      exact List.mem_of_mem_filter this
    · intro hx
      obtain ⟨m', hm', hmn', hmf'⟩ := groupSuccesses_mem gr.members p.1 hx
      have heq : m = m' := by
        apply List.inj_on_of_nodup_map hndm hm hm'
        rw [hmn, hmn']
      rw [heq, hmf'] at hmf
      cases hmf
  · intro cfg st ex name step g gr hex hstep han hreg hcond hg hgr herr
    have herrs' : (groupErrors gr.members).isEmpty = false := by
      cases hq : (groupErrors gr.members).isEmpty
      · rfl
      · exact absurd (List.isEmpty_iff.mp hq) herr
    obtain ⟨beh, hbeh⟩ := Option.isSome_iff_exists.mp hreg
    simp only [processName]
    rw [if_neg (by simpa using hex), hstep]
    simp [han, hbeh, hcond, hg, hgr, herrs']

/-- Witness for the amended C5 at a concrete input: the group `[B, C]` of
`c5cfg` settles to `c5groupRun`, and the walk iteration raises the aggregate
naming only `B`. -/
theorem c5_amended_witness :
    processName c5cfg ⟨[], [["B", "C"]], .str "i"⟩ [] "B" =
      .halt ⟨c5groupRun.outputs, [["B", "C"]], .str "i"⟩
        (groupEvents c5groupRun.members)
        ⟨.chainless, aggMsg (groupErrors c5groupRun.members)⟩ :=
  c5_amended_parallel_group_aggregation.2 c5cfg ⟨[], [["B", "C"]], .str "i"⟩ []
    "B" c5stepB ["B", "C"] c5groupRun (by decide) rfl (by decide) rfl rfl rfl
    rfl (by decide)


/-- `add_edge` keeps existing edges. -/
theorem addEdge_mem_old (es : List (String × String)) (e e' : String × String)
    (h : e' ∈ es) : e' ∈ addEdge es e := by
  unfold addEdge
  split
  · exact h
  · exact List.mem_append_left _ h

/-- `add_edge` makes its edge present. -/
theorem addEdge_mem_new (es : List (String × String)) (e : String × String) :
    e ∈ addEdge es e := by
  unfold addEdge
  split
  · next h => exact by simpa using h
  · exact List.mem_append_right _ (List.mem_singleton.mpr rfl)

/-- The dependency loop keeps old edges and inserts one `dep -> step` edge
per validated dependency. -/
theorem addStepDeps_mem (ags : List String) (sn : String) :
    ∀ (deps ns : List String) (es : List (String × String))
      (ns' : List String) (es' : List (String × String)),
      addStepDeps ags sn deps ns es = .ok (ns', es') →
      (∀ e ∈ es, e ∈ es') ∧ (∀ d ∈ deps, (d, sn) ∈ es')
  | [], ns, es, ns', es' => by
    intro h
    rw [show addStepDeps ags sn [] ns es = .ok (ns, es) from rfl] at h
    cases h
    exact ⟨fun e he => he, fun d hd => by cases hd⟩
  | dep :: deps, ns, es, ns', es' => by
    intro h
    by_cases hk : dep ∈ ags
    · rw [show addStepDeps ags sn (dep :: deps) ns es =
          addStepDeps ags sn deps (addNode (addNode ns dep) sn)
            (addEdge es (dep, sn)) by simp [addStepDeps, hk]] at h
      obtain ⟨h1, h2⟩ := addStepDeps_mem ags sn deps _ _ ns' es' h
      refine ⟨fun e he => h1 e (addEdge_mem_old es (dep, sn) e he), ?_⟩
      intro d hd
      rcases List.mem_cons.mp hd with rfl | hd
      · exact h1 (d, sn) (addEdge_mem_new es (d, sn))
      · exact h2 d hd
    · rw [show addStepDeps ags sn (dep :: deps) ns es = .error
          ⟨.runtimeErrorKind, "Step \x27" ++ sn ++ "\x27 depends on unknown agent \x27"
            ++ dep ++ "\x27."⟩ by simp [addStepDeps, hk]] at h
      cases h

/-- A successfully built graph contains every declared `dep -> step` edge. -/
theorem buildGraph_mem (ags : List String) :
    ∀ (steps : List StepDef) (ns : List String) (es : List (String × String))
      (nodes : List String) (edges : List (String × String)),
      buildGraph ags steps ns es = .ok (nodes, edges) →
      (∀ e ∈ es, e ∈ edges)
      ∧ (∀ s ∈ steps, ∀ d ∈ s.dependsOn, (d, s.stepName) ∈ edges)
  | [], ns, es, nodes, edges => by
    intro h
    rw [show buildGraph ags [] ns es = .ok (ns, es) from rfl] at h
    cases h
    exact ⟨fun e he => he, fun s hs => by cases hs⟩
  | step :: rest, ns, es, nodes, edges => by
    intro h
    cases hd : addStepDeps ags step.stepName step.dependsOn
        (addNode ns step.stepName) es with
    | error e =>
      rw [show buildGraph ags (step :: rest) ns es =
          match addStepDeps ags step.stepName step.dependsOn
            (addNode ns step.stepName) es with
          | .error e => .error e
          | .ok (ns2, es2) => buildGraph ags rest ns2 es2 from rfl, hd] at h
      cases h
    | ok pair =>
      obtain ⟨ns2, es2⟩ := pair
      rw [show buildGraph ags (step :: rest) ns es =
          match addStepDeps ags step.stepName step.dependsOn
            (addNode ns step.stepName) es with
          | .error e => .error e
          | .ok (ns2, es2) => buildGraph ags rest ns2 es2 from rfl, hd] at h
      obtain ⟨hmem, hdeps⟩ := addStepDeps_mem ags step.stepName step.dependsOn
        (addNode ns step.stepName) es ns2 es2 hd
      obtain ⟨h1, h2⟩ := buildGraph_mem ags rest ns2 es2 nodes edges h
      refine ⟨fun e he => h1 e (hmem e he), ?_⟩
      intro s hs d hds
      rcases List.mem_cons.mp hs with rfl | hs
      · exact h1 (d, s.stepName) (hdeps d hds)
      · exact h2 s hs d hds


/-- Invariant of the topological sort: in the emitted order, the source of
every original edge precedes its target. -/
theorem kahnLoop_prec :
    ∀ (fuel : Nat) (orig edges : List (String × String)) (queue acc : List String),
      (∀ e ∈ orig, e.1 ∉ acc → e ∈ edges) →
      (∀ m ∈ queue, ∀ e ∈ edges, e.2 ≠ m) →
      (∀ e ∈ orig, ∀ l1 l2, acc = l1 ++ e.2 :: l2 → e.1 ∈ l1) →
      ∀ e ∈ orig, ∀ l1 l2, kahnLoop fuel edges queue acc = l1 ++ e.2 :: l2 →
        e.1 ∈ l1
  | 0, orig, edges, queue, acc => by
    intro _ _ hacc
    rw [show kahnLoop 0 edges queue acc = acc from rfl]
    exact hacc
  | fuel + 1, orig, edges, queue, acc => by
    intro hsub hq hacc
    cases queue with
    | nil =>
      rw [show kahnLoop (fuel + 1) edges [] acc = acc from rfl]
      exact hacc
    | cons n qs =>
      rw [show kahnLoop (fuel + 1) edges (n :: qs) acc =
          kahnLoop fuel (edges.filter (fun e => e.1 ≠ n))
            (qs ++ ((edges.filter (fun e => e.1 = n)).map (fun e => e.2)).filter
              (fun m => indegree (edges.filter (fun e => e.1 ≠ n)) m = 0))
            (acc ++ [n]) from rfl]
      -- every original edge into `n` has its source already emitted
      have hu : ∀ e ∈ orig, e.2 = n → e.1 ∈ acc := by
        intro e he h2
        by_contra hnot
        exact hq n (List.mem_cons_self n qs) e (hsub e he hnot) h2
      apply kahnLoop_prec fuel orig
      · -- subset invariant for the shrunk edge set
        intro e he hnot
        have h1 : e.1 ∉ acc := fun hin =>
          hnot (List.mem_append_left _ hin)
        have h2 : e.1 ≠ n := fun hn =>
          hnot (List.mem_append_right _ (by rw [hn]; exact List.mem_singleton.mpr rfl))
        exact List.mem_filter.mpr ⟨hsub e he h1, by simpa using h2⟩
      · -- the new queue still has in-degree zero w.r.t. the shrunk edges
        intro m hm e he
        rcases List.mem_append.mp hm with hmq | hmz
        · exact hq m (List.mem_cons_of_mem n hmq) e (List.mem_of_mem_filter he)
        · obtain ⟨hmem, hdeg⟩ := List.mem_filter.mp hmz
          intro h2
          have : e ∈ (edges.filter (fun e => e.1 ≠ n)).filter (fun e => e.2 = m) :=
            List.mem_filter.mpr ⟨he, by simpa using h2⟩
          have hlen : ((edges.filter (fun e => e.1 ≠ n)).filter
              (fun e => e.2 = m)).length = 0 := by
            simpa [indegree] using hdeg
          rw [List.length_eq_zero] at hlen
          rw [hlen] at this
          cases this
      · -- precedence extended to the newly emitted node
        intro e he l1 l2 hsplit
        rcases List.append_eq_append_iff.mp hsplit.symm with
          ⟨a', ha1, ha2⟩ | ⟨c', hc1, hc2⟩
        · cases a' with
          | nil =>
            have h2 : e.2 = n ∧ l2 = [] := by simpa using ha2
            rw [List.append_nil] at ha1
            rw [← ha1]
            exact hu e he h2.1
          | cons x xs =>
            have h2 : e.2 = x ∧ l2 = xs ++ [n] := by simpa using ha2
            refine hacc e he l1 xs ?_
            rw [ha1, ← h2.1]
        · cases c' with
          | nil =>
            have h2 : n = e.2 ∧ l2 = [] := by simpa using hc2
            rw [List.append_nil] at hc1
            rw [hc1]
            exact hu e he h2.1.symm
          | cons x xs =>
            exfalso
            have := congrArg List.length hc2
            simp at this


/-- A node of in-degree zero has no incoming edge. -/
theorem indegree_zero_no_edge (edges : List (String × String)) (m : String)
    (hdeg : indegree edges m = 0) : ∀ e ∈ edges, e.2 ≠ m := by
  intro e he h2
  have hm : e ∈ edges.filter (fun e => e.2 = m) :=
    List.mem_filter.mpr ⟨he, by simpa using h2⟩
  have : (edges.filter (fun e => e.2 = m)).length = 0 := hdeg
  rw [List.length_eq_zero] at this
  rw [this] at hm
  cases hm

/-- `topological_sort` respects every edge of the graph. -/
theorem kahnSort_prec (nodes : List String) (edges : List (String × String)) :
    ∀ e ∈ edges, ∀ l1 l2, kahnSort nodes edges = l1 ++ e.2 :: l2 → e.1 ∈ l1 := by
  apply kahnLoop_prec nodes.length edges edges
    (nodes.filter (fun n => indegree edges n = 0)) []
  · exact fun e he _ => he
  · intro m hm
    exact indegree_zero_no_edge edges m (by simpa using (List.mem_filter.mp hm).2)
  · intro e _ l1 l2 hx
    cases l1 <;> simp at hx

/-- In any computed execution order, every declared dependency of a step
precedes the step. -/
theorem getExecutionOrder_prec (steps : List StepDef) (order : List String)
    (h : getExecutionOrder steps = .ok order) :
    ∀ s ∈ steps, ∀ d ∈ s.dependsOn, ∀ l1 l2,
      order = l1 ++ s.stepName :: l2 → d ∈ l1 := by
  unfold getExecutionOrder at h
  by_cases hall : steps.all (fun s => s.dependsOn.isEmpty) = true
  · rw [if_pos hall] at h
    intro s hs d hd
    have hempty := List.all_eq_true.mp hall s hs
    rw [List.isEmpty_iff] at hempty
    rw [hempty] at hd
    cases hd
  · rw [if_neg hall] at h
    have h2 : (match buildGraph (List.map (fun s => s.stepName) steps) steps [] [] with
        | Except.error e => (Except.error e : Except PyErr (List String))
        | Except.ok (nodes, edges) =>
          if (kahnSort nodes edges).length = nodes.length then
            Except.ok (kahnSort nodes edges)
          else
            Except.error (cycleError (findCycleTriples edges
              (List.filter (fun n => !(kahnSort nodes edges).contains n) nodes)))) =
        Except.ok order := h
    cases hbg : buildGraph (List.map (fun s => s.stepName) steps) steps [] [] with
    | error e =>
      rw [hbg] at h2
      cases h2
    | ok pair =>
      obtain ⟨nodes, edges⟩ := pair
      rw [hbg] at h2
      have h3 : (if (kahnSort nodes edges).length = nodes.length then
            Except.ok (kahnSort nodes edges)
          else
            Except.error (cycleError (findCycleTriples edges
              (List.filter (fun n => !(kahnSort nodes edges).contains n) nodes))) :
          Except PyErr (List String)) = Except.ok order := h2
      by_cases hlen : (kahnSort nodes edges).length = nodes.length
      · rw [if_pos hlen] at h3
        injection h3 with h3
        intro s hs d hd l1 l2 hsplit
        have hedge := (buildGraph_mem _ steps [] [] nodes edges hbg).2 s hs d hd
        exact kahnSort_prec nodes edges (d, s.stepName) hedge l1 l2
          (by rw [h3, hsplit])
      · rw [if_neg hlen] at h3
        cases h3


/-- Every event of one `run_step_async` call is about that very step. -/
theorem runStep_events_named (cfg : FlowCfg) (ii : Value)
    (outs : List (String × Value)) (step : StepDef) :
    ∀ e ∈ (runStepAsync cfg ii outs step).events, eventStep e = step.stepName := by
  intro e he
  cases hres : resolveInputMap ⟨cfg.aliases, outs, ii⟩ step.inputMap with
  | error e0 => simp [runStepAsync, hres] at he
  | ok resolved =>
    cases hag : agentGet cfg.agents step.agentName with
    | none =>
      simp [runStepAsync, hres, hag] at he
      rcases he with rfl | rfl <;> rfl
    | some beh =>
      cases hl : stepLoop beh (prepareInput resolved) step.timeout step.agentName
          step.stepName (step.retryOnFail.getD cfg.retryOnFail) 0 Option.none with
      | mk exit attempts =>
        cases exit with
        | success v stale =>
          cases stale with
          | none =>
            simp [runStepAsync, hres, hag, hl] at he
            rcases he with rfl | rfl | ⟨a, _, rfl⟩ | rfl | rfl | rfl <;> rfl
          | some e0 =>
            simp [runStepAsync, hres, hag, hl] at he
            rcases he with rfl | rfl | ⟨a, _, rfl⟩ | rfl | rfl | rfl <;> rfl
        | brokeErr e0 =>
          simp [runStepAsync, hres, hag, hl] at he
          rcases he with rfl | rfl | ⟨a, _, rfl⟩ | rfl | rfl | rfl <;> rfl
        | raisedPermanent e0 =>
          simp [runStepAsync, hres, hag, hl] at he
          rcases he with rfl | rfl | ⟨a, _, rfl⟩ <;> rfl

/-- A successful `run_step_async` call writes its `step_outputs` entry. -/
theorem runStep_ok_record (cfg : FlowCfg) (ii : Value)
    (outs : List (String × Value)) (step : StepDef) (v : Value)
    (h : (runStepAsync cfg ii outs step).result = .ok v) :
    containsRecord (runStepAsync cfg ii outs step).events step.stepName = true := by
  cases hres : resolveInputMap ⟨cfg.aliases, outs, ii⟩ step.inputMap with
  | error e0 => simp [runStepAsync, hres] at h
  | ok resolved =>
    cases hag : agentGet cfg.agents step.agentName with
    | none => simp [runStepAsync, hres, hag] at h
    | some beh =>
      cases hl : stepLoop beh (prepareInput resolved) step.timeout step.agentName
          step.stepName (step.retryOnFail.getD cfg.retryOnFail) 0 Option.none with
      | mk exit attempts =>
        cases exit with
        | success w stale =>
          cases stale with
          | none => simp [runStepAsync, hres, hag, hl, containsRecord]
          | some e0 => simp [runStepAsync, hres, hag, hl] at h
        | brokeErr e0 => simp [runStepAsync, hres, hag, hl] at h
        | raisedPermanent e0 => simp [runStepAsync, hres, hag, hl] at h

/-- Once the dependency is known settled, the scan always passes. -/
theorem depSettledAux_true (d s : String) :
    ∀ evs, depSettledAux d s evs true = true
  | [] => rfl
  | e :: rest => by
    cases e with
    | record m => simpa [depSettledAux] using depSettledAux_true d s rest
    | invoke m k =>
      by_cases hm : m == s
      · simpa [depSettledAux, hm] using depSettledAux_true d s rest
      · simpa [depSettledAux, hm] using depSettledAux_true d s rest
    | hookStepStart m i => simpa [depSettledAux] using depSettledAux_true d s rest
    | hookFlowStart m i => simpa [depSettledAux] using depSettledAux_true d s rest
    | hookStepError m i => simpa [depSettledAux] using depSettledAux_true d s rest
    | hookFlowError m i => simpa [depSettledAux] using depSettledAux_true d s rest
    | hookFlowComplete m i => simpa [depSettledAux] using depSettledAux_true d s rest
    | hookStepComplete m i => simpa [depSettledAux] using depSettledAux_true d s rest

/-- The scan walks past a block with no events about `s`, accumulating any
`step_outputs` writes for `d` it contains. -/
theorem depSettledAux_append (d s : String) :
    ∀ (xs ys : List Event) (b : Bool), (∀ e ∈ xs, eventStep e ≠ s) →
      depSettledAux d s (xs ++ ys) b =
        depSettledAux d s ys (b || containsRecord xs d)
  | [], ys, b => by
    intro _
    simp [containsRecord]
  | e :: xs, ys, b => by
    intro hn
    have hrest := depSettledAux_append d s xs ys
    have hne : eventStep e ≠ s := hn e (List.mem_cons_self e xs)
    have hxs : ∀ e ∈ xs, eventStep e ≠ s :=
      fun e' he' => hn e' (List.mem_cons_of_mem e he')
    cases e with
    | record m =>
      rw [List.cons_append]
      rw [show depSettledAux d s (Event.record m :: (xs ++ ys)) b =
          depSettledAux d s (xs ++ ys) (b || (m == d)) from rfl]
      rw [hrest _ hxs]
      rw [show containsRecord (Event.record m :: xs) d =
          ((m == d) || containsRecord xs d) from by
        simp [containsRecord]]
      rw [Bool.or_assoc]
    | invoke m k =>
      have hm : (m == s) = false := by
        simp [eventStep] at hne
        simpa using hne
      rw [List.cons_append]
      rw [show depSettledAux d s (Event.invoke m k :: (xs ++ ys)) b =
          if m == s then b && depSettledAux d s (xs ++ ys) b
          else depSettledAux d s (xs ++ ys) b from rfl]
      rw [hm]
      simp only [Bool.false_eq_true, if_false]
      rw [hrest _ hxs]
      rfl
    | hookStepStart m i =>
      rw [List.cons_append]
      rw [show depSettledAux d s (Event.hookStepStart m i :: (xs ++ ys)) b =
          depSettledAux d s (xs ++ ys) b from rfl]
      rw [hrest _ hxs]
      rfl
    | hookFlowStart m i =>
      rw [List.cons_append]
      rw [show depSettledAux d s (Event.hookFlowStart m i :: (xs ++ ys)) b =
          depSettledAux d s (xs ++ ys) b from rfl]
      rw [hrest _ hxs]
      rfl
    | hookStepError m i =>
      rw [List.cons_append]
      rw [show depSettledAux d s (Event.hookStepError m i :: (xs ++ ys)) b =
          depSettledAux d s (xs ++ ys) b from rfl]
      rw [hrest _ hxs]
      rfl
    | hookFlowError m i =>
      rw [List.cons_append]
      rw [show depSettledAux d s (Event.hookFlowError m i :: (xs ++ ys)) b =
          depSettledAux d s (xs ++ ys) b from rfl]
      rw [hrest _ hxs]
      rfl
    | hookFlowComplete m i =>
      rw [List.cons_append]
      rw [show depSettledAux d s (Event.hookFlowComplete m i :: (xs ++ ys)) b =
          depSettledAux d s (xs ++ ys) b from rfl]
      rw [hrest _ hxs]
      rfl
    | hookStepComplete m i =>
      rw [List.cons_append]
      rw [show depSettledAux d s (Event.hookStepComplete m i :: (xs ++ ys)) b =
          depSettledAux d s (xs ++ ys) b from rfl]
      rw [hrest _ hxs]
      rfl

/-- A trace with no events about `s` passes the scan outright. -/
theorem depSettledAux_no_s (d s : String) (evs : List Event)
    (hn : ∀ e ∈ evs, eventStep e ≠ s) (b : Bool) :
    depSettledAux d s evs b = true := by
  have := depSettledAux_append d s evs [] b hn
  rw [List.append_nil] at this
  rw [this]
  rfl

/-- A block whose events are all about another step records nothing for `d`. -/
theorem containsRecord_of_named (evs : List Event) (nm d : String)
    (hn : ∀ e ∈ evs, eventStep e = nm) (hd : d ≠ nm) :
    containsRecord evs d = false := by
  induction evs with
  | nil => rfl
  | cons e rest ih =>
    have hrest := ih (fun e' he' => hn e' (List.mem_cons_of_mem e he'))
    have he := hn e (List.mem_cons_self e rest)
    cases e with
    | record m =>
      have : m = nm := he
      subst this
      have : (m == d) = false := by
        simpa using fun h => hd h.symm
      simp [containsRecord] at hrest ⊢
      exact ⟨fun h => hd h.symm, hrest⟩
    | invoke m k => simpa [containsRecord] using hrest
    | hookStepStart m i => simpa [containsRecord] using hrest
    | hookFlowStart m i => simpa [containsRecord] using hrest
    | hookStepError m i => simpa [containsRecord] using hrest
    | hookFlowError m i => simpa [containsRecord] using hrest
    | hookFlowComplete m i => simpa [containsRecord] using hrest
    | hookStepComplete m i => simpa [containsRecord] using hrest


/-- Main walk invariant for claim C7: along a group-free walk whose
remaining order places `d` before every occurrence of `sName`, every
invocation of `sName` is preceded by a recorded result for `d` (unless `d`
was already settled at entry). -/
theorem walkFrom_dep (cfg : FlowCfg) (d sName : String) :
    ∀ (order : List String) (st : FlowState) (ex : List String),
      st.parallelGroups = [] →
      (∀ n ∈ ex, (dictGet st.outputs n).isSome = true) →
      (∀ l1 l2, order = l1 ++ sName :: l2 → d ∈ l1) →
      depSettledAux d sName (walkFrom cfg order st ex).events
        ((dictGet st.outputs d).isSome) = true
  | [], st, ex => by
    intro _ _ _
    rw [show (walkFrom cfg [] st ex).events = [] from rfl]
    rfl
  | n :: rest, st, ex => by
    intro hgr hex hord
    by_cases hseen : (dictGet st.outputs d).isSome = true
    · rw [hseen]
      exact depSettledAux_true d sName _
    · have hseen' : (dictGet st.outputs d).isSome = false := by
        revert hseen
        cases (dictGet st.outputs d).isSome <;> simp
      rw [hseen']
      by_cases hns : n = sName
      · exact absurd (hord [] rest (by rw [hns]; rfl)) (List.not_mem_nil d)
      · have hord' : ∀ l1 l2, rest = l1 ++ sName :: l2 → d ∈ n :: l1 := by
          intro l1 l2 hsplit
          exact hord (n :: l1) l2 (by rw [hsplit]; rfl)
        by_cases hexn : n ∈ ex
        · -- already executed: nothing happens this iteration
          have hdn : d ≠ n := by
            intro hdn
            rw [hdn] at hseen'
            rw [hex n hexn] at hseen'
            cases hseen'
          have hord2 : ∀ l1 l2, rest = l1 ++ sName :: l2 → d ∈ l1 := by
            intro l1 l2 hsplit
            rcases List.mem_cons.mp (hord' l1 l2 hsplit) with h | h
            · exact absurd h hdn
            · exact h
          have hunf : processName cfg st ex n = .next st ex [] := by
            simp [processName, hexn]
          have hw : (walkFrom cfg (n :: rest) st ex).events =
              [] ++ (walkFrom cfg rest st ex).events := by
            simp [walkFrom, hunf]
          rw [hw, List.nil_append]
          have := walkFrom_dep cfg d sName rest st ex hgr hex hord2
          rw [hseen'] at this
          exact this
        · cases hstep : getStepByName cfg.steps n with
          | none =>
            have hunf : processName cfg st ex n = .halt st []
                ⟨.chainless,
                 "Step \x27" ++ n ++ "\x27 does not exist in the task flow."⟩ := by
              simp [processName, hexn, hstep]
            have hw : (walkFrom cfg (n :: rest) st ex).events = [] := by
              simp [walkFrom, hunf]
            rw [hw]
            rfl
          | some step =>
            have hname : step.stepName = n := getStepByName_name cfg.steps n step hstep
            by_cases han : step.agentName = ""
            · have hunf : processName cfg st ex n = .halt st []
                  ⟨.chainless,
                   "Step \x27\x27" ++ n ++ " must have an assigned agent."⟩ := by
                simp [processName, hexn, hstep, han]
              have hw : (walkFrom cfg (n :: rest) st ex).events = [] := by
                simp [walkFrom, hunf]
              rw [hw]
              rfl
            · cases hag : agentGet cfg.agents step.agentName with
              | none =>
                have hunf : processName cfg st ex n = .halt st []
                    ⟨.chainless, "Agent \x27" ++ step.agentName ++ "\x27 for step \x27"
                      ++ n ++ "\x27 is not registered."⟩ := by
                  simp [processName, hexn, hstep, han, hag]
                have hw : (walkFrom cfg (n :: rest) st ex).events = [] := by
                  simp [walkFrom, hunf]
                rw [hw]
                rfl
              | some beh =>
                by_cases hp : (match step.condition with
                  | Option.none => true
                  | some c => pyBoolCoerce (c st.outputs)) = false
                · -- skipped: record the skip marker and continue
                  have hunf : processName cfg st ex n =
                      .next ⟨dictSet st.outputs n skippedDict, st.parallelGroups,
                        st.initialInput⟩ ex [Event.record n] := by
                    simp only [processName]
                    rw [if_neg (by simpa using hexn), hstep]
                    simp [han, hag, hp]
                  have hw : (walkFrom cfg (n :: rest) st ex).events =
                      Event.record n ::
                        (walkFrom cfg rest ⟨dictSet st.outputs n skippedDict,
                          st.parallelGroups, st.initialInput⟩ ex).events := by
                    simp [walkFrom, hunf]
                  rw [hw]
                  rw [show depSettledAux d sName (Event.record n :: _) false =
                      depSettledAux d sName (walkFrom cfg rest
                        ⟨dictSet st.outputs n skippedDict, st.parallelGroups,
                          st.initialInput⟩ ex).events (false || (n == d)) from rfl]
                  by_cases hdn : n = d
                  · rw [show (n == d) = true by simpa using hdn]
                    simp only [Bool.or_true]
                    exact depSettledAux_true d sName _
                  · rw [show (n == d) = false by simpa using hdn]
                    simp only [Bool.or_false]
                    have hout : (dictGet (dictSet st.outputs n skippedDict) d).isSome
                        = false := by
                      rw [dictGet_dictSet_ne st.outputs n d skippedDict hdn]
                      exact hseen'
                    have hord2 : ∀ l1 l2, rest = l1 ++ sName :: l2 → d ∈ l1 := by
                      intro l1 l2 hsplit
                      rcases List.mem_cons.mp (hord' l1 l2 hsplit) with h | h
                      · exact absurd h.symm hdn
                      · exact h
                    have := walkFrom_dep cfg d sName rest
                      ⟨dictSet st.outputs n skippedDict, st.parallelGroups,
                        st.initialInput⟩ ex hgr
                      (fun m hm => dictGet_isSome_dictSet _ _ _ _ (hex m hm)) hord2
                    rw [show (dictGet (⟨dictSet st.outputs n skippedDict,
                        st.parallelGroups, st.initialInput⟩ :
                        FlowState).outputs d).isSome = false from hout] at this
                    exact this
                · have hp' : (match step.condition with
                      | Option.none => true
                      | some c => pyBoolCoerce (c st.outputs)) = true := by
                    revert hp
                    cases (match step.condition with
                      | Option.none => true
                      | some c => pyBoolCoerce (c st.outputs)) <;> simp
                  have hg0 : findGroup st.parallelGroups n = Option.none := by
                    rw [hgr]
                    rfl
                  have hnamed : ∀ e ∈ (runStepAsync cfg st.initialInput
                      st.outputs step).events, eventStep e ≠ sName := by
                    intro e he heq
                    rw [runStep_events_named cfg st.initialInput st.outputs step e he]
                      at heq
                    rw [hname] at heq
                    exact hns heq
                  cases hres : (runStepAsync cfg st.initialInput st.outputs step).result with
                  | error e0 =>
                    have hunf : processName cfg st ex n =
                        .halt ⟨(runStepAsync cfg st.initialInput st.outputs step).outputs,
                            st.parallelGroups, st.initialInput⟩
                          (runStepAsync cfg st.initialInput st.outputs step).events e0 := by
                      simp only [processName]
                      rw [if_neg (by simpa using hexn), hstep]
                      simp [han, hag, hp', hg0, hres]
                    have hw : (walkFrom cfg (n :: rest) st ex).events =
                        (runStepAsync cfg st.initialInput st.outputs step).events := by
                      simp [walkFrom, hunf]
                    rw [hw]
                    exact depSettledAux_no_s d sName _ hnamed false
                  | ok v =>
                    have hunf : processName cfg st ex n =
                        .next ⟨(runStepAsync cfg st.initialInput st.outputs step).outputs,
                            st.parallelGroups, st.initialInput⟩
                          (ex ++ [n])
                          (runStepAsync cfg st.initialInput st.outputs step).events := by
                      simp only [processName]
                      rw [if_neg (by simpa using hexn), hstep]
                      simp [han, hag, hp', hg0, hres]
                    have hw : (walkFrom cfg (n :: rest) st ex).events =
                        (runStepAsync cfg st.initialInput st.outputs step).events ++
                          (walkFrom cfg rest
                            ⟨(runStepAsync cfg st.initialInput st.outputs step).outputs,
                              st.parallelGroups, st.initialInput⟩ (ex ++ [n])).events := by
                      simp [walkFrom, hunf]
                    rw [hw]
                    rw [depSettledAux_append d sName _ _ false hnamed]
                    by_cases hdn : n = d
                    · have hrec : containsRecord (runStepAsync cfg st.initialInput
                          st.outputs step).events d = true := by
                        rw [← hdn, ← hname]
                        exact runStep_ok_record cfg st.initialInput st.outputs step v hres
                      rw [hrec]
                      simp only [Bool.or_true]
                      exact depSettledAux_true d sName _
                    · have hrec : containsRecord (runStepAsync cfg st.initialInput
                          st.outputs step).events d = false := by
                        refine containsRecord_of_named _ step.stepName d
                          (runStep_events_named cfg st.initialInput st.outputs step) ?_
                        rw [hname]
                        intro h
                        exact hdn h.symm
                      rw [hrec]
                      simp only [Bool.or_false]
                      have hout : (dictGet (runStepAsync cfg st.initialInput
                          st.outputs step).outputs d).isSome = false := by
                        rcases runStep_outputs_shape cfg st.initialInput st.outputs step
                          with hs | ⟨w, hs⟩
                        · rw [hs]
                          exact hseen'
                        · rw [hs, hname]
                          rw [dictGet_dictSet_ne st.outputs n d w hdn]
                          exact hseen'
                      have hexn' : ∀ m ∈ ex ++ [n],
                          (dictGet (runStepAsync cfg st.initialInput
                            st.outputs step).outputs m).isSome = true := by
                        intro m hm
                        rcases List.mem_append.mp hm with hm | hm
                        · exact runStep_outputs_keyMono cfg st.initialInput st.outputs
                            step m (hex m hm)
                        · rw [List.mem_singleton] at hm
                          subst hm
                          rw [runStep_ok_outputs cfg st.initialInput st.outputs step v hres]
                          rw [hname]
                          rw [dictGet_dictSet_self]
                          rfl
                      have hord2 : ∀ l1 l2, rest = l1 ++ sName :: l2 → d ∈ l1 := by
                        intro l1 l2 hsplit
                        rcases List.mem_cons.mp (hord' l1 l2 hsplit) with h | h
                        · exact absurd h.symm hdn
                        · exact h
                      have := walkFrom_dep cfg d sName rest
                        ⟨(runStepAsync cfg st.initialInput st.outputs step).outputs,
                          st.parallelGroups, st.initialInput⟩ (ex ++ [n]) hgr hexn' hord2
                      rw [show (dictGet (⟨(runStepAsync cfg st.initialInput
                          st.outputs step).outputs, st.parallelGroups,
                          st.initialInput⟩ : FlowState).outputs d).isSome = false
                        from hout] at this
                      exact this


/-- C7, amended.  Flows in which no step declares `depends_on` execute in
exact declaration order (the fast path returns the declaration order
verbatim); and in every flow without parallel groups whose order resolves
(acyclic, dependencies valid), every step executes strictly after all the
steps it depends on have settled: each invocation of the step runnable invocation is
preceded in the trace by a recorded result of each dependency.  (With a
parallel group this fails — see the counterexample — because the walk
consumes a group as soon as it meets any member.) -/
theorem c7_amended_order_and_dependency :
    (∀ (steps : List StepDef), (∀ s ∈ steps, s.dependsOn = []) →
      getExecutionOrder steps = .ok (steps.map (fun s => s.stepName)))
    ∧ (∀ (cfg : FlowCfg) (st : FlowState) (input : Value) (s : StepDef)
        (d : String),
      st.parallelGroups = [] → st.outputs = [] →
      s ∈ cfg.steps → d ∈ s.dependsOn →
      depSettledBefore (taskFlowRun cfg st input).2.1 d s.stepName = true) := by
  constructor
  · intro steps h
    have hall : steps.all (fun s => s.dependsOn.isEmpty) = true := by
      rw [List.all_eq_true]
      intro s hs
      rw [h s hs]
      rfl
    simp [getExecutionOrder, hall]
  · intro cfg st input s d hgr hout hs hd
    rcases horder : getExecutionOrder cfg.steps with e | order
    · have hT : (taskFlowRun cfg st input).2.1 = [] := by
        simp [taskFlowRun, horder]
      rw [hT]
      rfl
    · have hT : (taskFlowRun cfg st input).2.1 =
          (walkFrom cfg order { st with initialInput := input } []).events := by
        rcases herr : (walkFrom cfg order { st with initialInput := input } []).err
          with _ | e <;> simp [taskFlowRun, horder, herr]
      rw [hT]
      have hord := getExecutionOrder_prec cfg.steps order horder s hs d hd
      have hmain := walkFrom_dep cfg d s.stepName order
        { st with initialInput := input } [] hgr
        (fun m hm => absurd hm (List.not_mem_nil m)) hord
      rw [show (dictGet ({ st with initialInput := input } : FlowState).outputs
          d).isSome = false from by
        rw [show ({ st with initialInput := input } : FlowState).outputs =
          st.outputs from rfl, hout]
        rfl] at hmain
      exact hmain

/-- Witness for the amended C7 at concrete inputs: a two-step flow without
dependencies keeps declaration order, and in the group-free run of `c7cfg`
step `C` runs only after its dependency `B` settled. -/
theorem c7_amended_witness :
    getExecutionOrder [c7stepA, c7stepB] = .ok ["A", "B"]
    ∧ depSettledBefore (taskFlowRun c7cfg ⟨[], [], .none⟩ (.str "i")).2.1
        "B" "C" = true :=
  ⟨c7_amended_order_and_dependency.1 [c7stepA, c7stepB] (by intro s hs; fin_cases hs <;> rfl),
   c7_amended_order_and_dependency.2 c7cfg ⟨[], [], .none⟩ (.str "i") c7stepC "B" rfl rfl
     (List.mem_cons_of_mem _ (List.mem_cons_of_mem _ (List.mem_cons_self _ _)))
     (List.mem_cons_self _ _)⟩

end Chainless
